import Mathlib

/-!
Shallow embedding of the gnim reactive core
(src/ags/lib/gnim/src/jsx: state.ts, scope.ts, For.ts, With.ts, Fragment.ts).

Subscriber callbacks, scopes, rendered outputs and context keys are modelled
by natural-number identities (JS compares them by object identity).  JS `Set`
objects keep insertion order and de-duplicate, so they are modelled as
duplicate-free lists with an append-if-absent insertion.  JS `Map` objects are
modelled as association lists: `set` of an existing key replaces in place,
`set` of a new key appends, `delete` removes.
-/

/-- JS `Set.prototype.add`: append if absent (insertion order is kept). -/
def addSet (x : Nat) (l : List Nat) : List Nat := if x ∈ l then l else l ++ [x]

/-!
## Stateful source (`createState`, state.ts lines 188-206)

`subscribe` inserts the callback into the subscriber set and returns an
unsubscribe closure that runs `subscribers.delete(callback)`.  The second
component of `stateSubscribe` is the list of callbacks invoked synchronously
during the subscription call itself (there are none: the body only does
`subscribers.add(callback)`).
-/

def stateSubscribe (cb : Nat) (subs : List Nat) : List Nat × List Nat :=
  (addSet cb subs, [])

/-- The unsubscribe closure returned by `createState`'s subscribe:
`() => subscribers.delete(callback)`. -/
def stateUnsubscribe (cb : Nat) (subs : List Nat) : List Nat := subs.erase cb

/-!
## Computed source (`createComputed`, state.ts lines 222-269)

### The `get` path

```
const get = (): V => {
    const args = deps.map((dep, i) => {
        if (!cache[i]) { cache[i] = dep.get() }
        return cache[i]
    })
    return transform ? transform(...(args as Args)) : (args as V)
}
```

A cache slot is a JS array element: `none` models an empty slot
(`undefined`), `some n` a stored number.  The slot test is JS truthiness
(`!cache[i]`), under which both an empty slot and a stored `0` are falsy.
Dependencies are modelled by their current values `depVals`; the model
returns the updated cache, the argument list handed to `transform`, and the
indices at which `dep.get()` was actually invoked.
-/

def truthy : Option Int → Bool
  | none => false
  | some n => n != 0

def computedGetAux : List (Option Int) → List Int → Nat →
    List (Option Int) × List Int × List Nat
  | c :: cs, v :: vs, i =>
    let slot := if truthy c then c else some v
    let rest := computedGetAux cs vs (i + 1)
    (slot :: rest.1, slot.getD 0 :: rest.2.1,
      (if truthy c then ([] : List Nat) else [i]) ++ rest.2.2)
  | _, _, _ => ([], [], [])

/-- One `get()` call of a computed accessor: updated cache, argument list for
the transform, indices where `dep.get()` was called. -/
def computedGet (cache : List (Option Int)) (depVals : List Int) :
    List (Option Int) × List Int × List Nat :=
  computedGetAux cache depVals 0

/-- A full `get()` call including the single application of `transform` to the
argument list (`return transform ? transform(...args) : args`). -/
def computedGetRun (f : List Int → Int) (cache : List (Option Int))
    (depVals : List Int) : List (Option Int) × Int × List Nat :=
  let r := computedGet cache depVals
  (r.1, f r.2.1, r.2.2)

/-!
Specification-side descriptions of one `get()` pass, used to state the
(amended) caching behaviour.  `cacheAfter`: a truthy slot is kept, a falsy
slot is refilled from the dependency.  `argsOf`: the argument handed to the
transform per slot.  `fetchedOf`: the indices of the falsy slots, i.e. the
dependencies that are re-read.
-/

def cacheAfter (cache : List (Option Int)) (depVals : List Int) :
    List (Option Int) :=
  List.zipWith (fun c v => if truthy c then c else some v) cache depVals

def argsOf (cache : List (Option Int)) (depVals : List Int) : List Int :=
  List.zipWith (fun c v => if truthy c then c.getD 0 else v) cache depVals

def fetchedOf (cache : List (Option Int)) : List Nat :=
  (cache.enum.filter (fun p => !truthy p.2)).map (fun p => p.1)

/-!
### The computed subscribe/unsubscribe path (state.ts lines 231-254)

```
const subscribe: SubscribeFunction = (callback) => {
    if (subscribers.size === 0) {
        dispose = deps.map((dep, i) => dep.subscribe(() => ...))
    }
    subscribers.add(callback)
    return () => {
        subscribers.delete(callback)
        if (subscribers.size === 0) {
            dispose.map((cb) => cb())
            dispose.length = 0
            cache.length = 0
        }
    }
}
```

`attached` is the length of the `dispose` array (one dependency listener per
dependency while the source is warm), `detachRuns` counts every execution of
a dependency-listener disposer, `cacheLen` the length of the cache array.
Attaching the per-dependency listeners invokes no subscriber callback, so
`computedSubscribe` returns `[]` as its synchronously-fired list.
-/

structure ComputedSub where
  subs : List Nat
  attached : Nat
  detachRuns : Nat
  cacheLen : Nat
deriving DecidableEq

def computedSubscribe (nDeps : Nat) (cb : Nat) (s : ComputedSub) :
    ComputedSub × List Nat :=
  let s1 := if s.subs = [] then { s with attached := nDeps } else s
  ({ s1 with subs := addSet cb s1.subs }, [])

def computedUnsubscribe (cb : Nat) (s : ComputedSub) : ComputedSub :=
  let s1 := { s with subs := s.subs.erase cb }
  if s1.subs = [] then
    { s1 with detachRuns := s1.detachRuns + s1.attached, attached := 0,
              cacheLen := 0 }
  else s1

/-!
## Event-connection source (`createConnection`, state.ts lines 386-423)

Same activation shape as the computed source: attach all signal handlers on
the 0 to 1 transition, and on the last unsubscribe run every stored
disconnect closure and empty the `dispose` array.  There is no cache array.
-/

structure ConnectionSub where
  subs : List Nat
  attached : Nat
  detachRuns : Nat
deriving DecidableEq

def connectionSubscribe (nSignals : Nat) (cb : Nat) (s : ConnectionSub) :
    ConnectionSub × List Nat :=
  let s1 := if s.subs = [] then { s with attached := nSignals } else s
  ({ s1 with subs := addSet cb s1.subs }, [])

def connectionUnsubscribe (cb : Nat) (s : ConnectionSub) : ConnectionSub :=
  let s1 := { s with subs := s.subs.erase cb }
  if s1.subs = [] then
    { s1 with detachRuns := s1.detachRuns + s1.attached, attached := 0 }
  else s1

/-!
## External source (`createExternal`, state.ts lines 442-472)

```
const subscribe: SubscribeFunction = (callback) => {
    if (subscribers.size === 0) {
        dispose = producer((v) => {
            const newValue = typeof v === "function" ? v(currentValue) : v
            if (newValue !== currentValue) {
                currentValue = newValue
                subscribers.forEach((cb) => cb())
            }
        })
    }
    subscribers.add(callback)
    return () => {
        subscribers.delete(callback)
        if (subscribers.size === 0) {
            dispose()
        }
    }
}
```

The producer may call the setter synchronously while it runs; those pushes
are modelled by the list `pushes`.  Crucially the producer runs before
`subscribers.add(callback)`.  `producerCalls` and `disposerCalls` count the
invocations performed by the code; `up` and `down` are observer counters for
the 0 to 1 and 1 to 0 subscriber-count transitions, used to state the
claims.
-/

structure ExternalSrc where
  value : Int
  subs : List Nat
  producerCalls : Nat
  disposerCalls : Nat
  up : Nat
  down : Nat
deriving DecidableEq

/-- The producer's synchronous setter pushes, executed against the subscriber
set current at producer-start: strict-inequality change test, then notify
every current subscriber.  Returns the final value and the fired callbacks. -/
def applyPushes (subs : List Nat) : List Int → Int → Int × List Nat
  | [], v => (v, [])
  | p :: ps, v =>
    if p = v then applyPushes subs ps v
    else
      let r := applyPushes subs ps p
      (r.1, subs ++ r.2)

def externalSubscribe (pushes : List Int) (cb : Nat) (s : ExternalSrc) :
    ExternalSrc × List Nat :=
  if s.subs = [] then
    let r := applyPushes s.subs pushes s.value
    ({ s with value := r.1, producerCalls := s.producerCalls + 1,
              up := s.up + 1, subs := addSet cb s.subs }, r.2)
  else
    ({ s with subs := addSet cb s.subs }, [])

/-- The unsubscribe closure returned by `createExternal`'s subscribe:
`subscribers.delete(callback); if (subscribers.size === 0) dispose()`.
Note there is no guard against a repeated call. -/
def externalUnsubscribe (cb : Nat) (s : ExternalSrc) : ExternalSrc :=
  let subs1 := s.subs.erase cb
  if subs1 = [] then
    { s with subs := subs1, disposerCalls := s.disposerCalls + 1,
             down := s.down + (if s.subs = [] then 0 else 1) }
  else { s with subs := subs1 }

/-- A subscribe/unsubscribe interaction with an external source.  A `sub` op
carries the synchronous pushes its producer start would perform. -/
inductive ExtOp where
  | sub (cb : Nat) (pushes : List Int)
  | unsub (cb : Nat)
deriving DecidableEq

def extRun : List ExtOp → ExternalSrc → ExternalSrc
  | [], s => s
  | .sub cb pushes :: ops, s => extRun ops (externalSubscribe pushes cb s).1
  | .unsub cb :: ops, s => extRun ops (externalUnsubscribe cb s)

def extInit : ExternalSrc := ⟨0, [], 0, 0, 0, 0⟩

/-- Well-formed interaction: every callback is subscribed at most once
(pairwise distinct callbacks) and every unsubscribe closure is invoked at
most once, only after its subscribe. -/
def extWfOps : List ExtOp → List Nat → List Nat → Bool
  | [], _, _ => true
  | .sub cb _ :: ops, subbed, unsubbed =>
    decide (cb ∉ subbed) && extWfOps ops (cb :: subbed) unsubbed
  | .unsub cb :: ops, subbed, unsubbed =>
    decide (cb ∈ subbed) && decide (cb ∉ unsubbed) &&
      extWfOps ops subbed (cb :: unsubbed)

/-!
## Lemmas about the signal-source models
-/

lemma applyPushes_nil_subs (ps : List Int) (v : Int) :
    (applyPushes [] ps v).2 = [] := by
  induction ps generalizing v with
  | nil => rfl
  | cons p ps ih =>
    simp only [applyPushes]
    split
    · exact ih v
    · simpa using ih p

lemma computedGetAux_eq (cache : List (Option Int)) :
    ∀ (depVals : List Int) (i : Nat), cache.length = depVals.length →
    computedGetAux cache depVals i =
      (cacheAfter cache depVals, argsOf cache depVals,
        ((List.enumFrom i cache).filter (fun p => !truthy p.2)).map
          (fun p => p.1)) := by
  induction cache with
  | nil =>
    intro depVals i h
    cases depVals with
    | nil => rfl
    | cons v vs => simp at h
  | cons c cs ih =>
    intro depVals i h
    cases depVals with
    | nil => simp at h
    | cons v vs =>
      simp only [List.length_cons, Nat.succ.injEq] at h
      simp only [computedGetAux, ih vs (i + 1) h, cacheAfter, argsOf,
        List.zipWith_cons_cons, List.enumFrom_cons, List.filter_cons]
      by_cases hc : truthy c
      · simp [hc, cacheAfter, argsOf]
      · simp [hc, cacheAfter, argsOf]

/-- C2 counterexample: a zero-subscriber `get()` fills the cache slot
(`[none] ↦ [some 1]`), and the next `get()` performs no `dep.get()` call at
all: it serves the slot from the cache (even a stale one: with the dependency
now reading 2, the argument list is still `[1]`), contradicting the claim that
with zero subscribers every `get()` recomputes against fresh dependency
reads. -/
theorem createComputed_get_cex :
    (computedGet [none] [1]).1 = [some 1] ∧
    (computedGet [none] [1]).2.2 = [0] ∧
    (computedGet [some 1] [1]).2.2 = [] ∧
    (computedGet [some 1] [2]).2.2 = [] ∧
    (computedGet [some 1] [2]).2.1 = [1] := by decide

/-- C2 amended: with zero subscribers every `get()` call still applies the
transform exactly once (so two consecutive calls invoke it twice), but the
dependency `get()` calls are only performed for the cache slots holding falsy
values (empty slot or a stored 0); a slot left truthy by an earlier call is
served from the cache. -/
theorem createComputed_get_amended (f : List Int → Int)
    (cache : List (Option Int)) (depVals : List Int)
    (hlen : cache.length = depVals.length) :
    computedGetRun f cache depVals =
      (cacheAfter cache depVals, f (argsOf cache depVals), fetchedOf cache) := by
  simp only [computedGetRun, computedGet, computedGetAux_eq cache depVals 0 hlen,
    fetchedOf, List.enum]

theorem createComputed_get_amended_witness :
    ([some 2, some 0] : List (Option Int)).length = ([5, 7] : List Int).length ∧
    computedGetRun (fun l => l.foldr (fun a b => a + b) 0) [some 2, some 0] [5, 7] =
      (cacheAfter [some 2, some 0] [5, 7],
        (fun l => l.foldr (fun a b => a + b) 0) (argsOf [some 2, some 0] [5, 7]),
        fetchedOf [some 2, some 0]) :=
  ⟨by decide,
    createComputed_get_amended (fun l => l.foldr (fun a b => a + b) 0)
      [some 2, some 0] [5, 7] (by decide)⟩

/-- C3 counterexample: for the external source the returned unsubscribe is not
idempotent: after `subscribe` and one `unsubscribe` (disposer ran once), a
second call of the same unsubscribe runs the disposer again. -/
theorem unsubscribe_idempotent_cex :
    (externalUnsubscribe 7 (externalSubscribe [] 7 extInit).1).disposerCalls = 1 ∧
    (externalUnsubscribe 7
      (externalUnsubscribe 7 (externalSubscribe [] 7 extInit).1)).disposerCalls = 2 := by
  decide

/-- C3 amended: the unsubscribe returned by `subscribe` is idempotent for the
stateful source, and for the computed and event-connection sources a repeated
call leaves the state unchanged and re-runs no detach logic (the dispose
array was emptied on the first drain); for the external source, however, a
repeated call of an unsubscribe whose first call drained the subscriber set
re-invokes the disposer. -/
theorem unsubscribe_idempotent_amended :
    (∀ (subs : List Nat) (cb : Nat), subs.Nodup →
      stateUnsubscribe cb (stateUnsubscribe cb subs) = stateUnsubscribe cb subs) ∧
    (∀ (s : ComputedSub) (cb : Nat), s.subs.Nodup →
      computedUnsubscribe cb (computedUnsubscribe cb s) = computedUnsubscribe cb s) ∧
    (∀ (s : ConnectionSub) (cb : Nat), s.subs.Nodup →
      connectionUnsubscribe cb (connectionUnsubscribe cb s) =
        connectionUnsubscribe cb s) ∧
    (∀ (s : ExternalSrc) (cb : Nat), (externalUnsubscribe cb s).subs = [] →
      (externalUnsubscribe cb (externalUnsubscribe cb s)).disposerCalls =
        (externalUnsubscribe cb s).disposerCalls + 1) := by
  refine ⟨?_, ?_, ?_, ?_⟩
  · intro subs cb hnd
    have hcb : cb ∉ subs.erase cb := fun hm =>
      (((List.Nodup.mem_erase_iff hnd).1 hm).1 rfl)
    simp [stateUnsubscribe, List.erase_of_not_mem hcb]
  · intro s cb hnd
    have hcb : cb ∉ s.subs.erase cb := fun hm =>
      (((List.Nodup.mem_erase_iff hnd).1 hm).1 rfl)
    simp only [computedUnsubscribe]
    by_cases h : s.subs.erase cb = []
    · simp [h]
    · simp [h, List.erase_of_not_mem hcb]
  · intro s cb hnd
    have hcb : cb ∉ s.subs.erase cb := fun hm =>
      (((List.Nodup.mem_erase_iff hnd).1 hm).1 rfl)
    simp only [connectionUnsubscribe]
    by_cases h : s.subs.erase cb = []
    · simp [h]
    · simp [h, List.erase_of_not_mem hcb]
  · intro s cb h
    simp only [externalUnsubscribe] at h ⊢
    by_cases h0 : s.subs.erase cb = []
    · simp only [h0, if_pos rfl] at h ⊢
      simp [List.erase_nil]
    · simp only [h0, if_neg h0] at h
      exact absurd h h0

theorem unsubscribe_idempotent_amended_witness :
    ([3] : List Nat).Nodup ∧
    stateUnsubscribe 3 (stateUnsubscribe 3 [3]) = stateUnsubscribe 3 [3] :=
  ⟨by decide, unsubscribe_idempotent_amended.1 [3] 3 (by decide)⟩

lemma extRun_invariant (ops : List ExtOp) :
    ∀ (s : ExternalSrc) (subbed unsubbed : List Nat),
    extWfOps ops subbed unsubbed = true →
    (∀ x, x ∈ s.subs ↔ x ∈ subbed ∧ x ∉ unsubbed) →
    s.subs.Nodup →
    (∀ x ∈ unsubbed, x ∈ subbed) →
    s.producerCalls = s.up →
    s.disposerCalls = s.down →
    (extRun ops s).producerCalls = (extRun ops s).up ∧
      (extRun ops s).disposerCalls = (extRun ops s).down := by
  induction ops with
  | nil => intro s _ _ _ _ _ _ hp hd; exact ⟨hp, hd⟩
  | cons op ops ih =>
    intro s subbed unsubbed hwf hmem hnd hsub hp hd
    cases op with
    | sub cb pushes =>
      simp only [extWfOps, Bool.and_eq_true, decide_eq_true_eq] at hwf
      obtain ⟨hcb, hwf⟩ := hwf
      have hcbs : cb ∉ s.subs := fun hm => hcb ((hmem cb).1 hm).1
      have hcbu : cb ∉ unsubbed := fun hm => hcb (hsub cb hm)
      have hadd : addSet cb s.subs = s.subs ++ [cb] := by
        simp [addSet, hcbs]
      have hmem1 : ∀ x, x ∈ addSet cb s.subs ↔ x ∈ cb :: subbed ∧ x ∉ unsubbed := by
        intro x
        rw [hadd]
        constructor
        · intro hx
          rcases List.mem_append.1 hx with hx | hx
          · exact ⟨List.mem_cons_of_mem cb ((hmem x).1 hx).1, ((hmem x).1 hx).2⟩
          · have hxcb : x = cb := by simpa using hx
            subst hxcb
            exact ⟨List.mem_cons_self x subbed, hcbu⟩
        · intro hx
          rcases List.mem_cons.1 hx.1 with rfl | hx1
          · exact List.mem_append.2 (Or.inr (by simp))
          · exact List.mem_append.2 (Or.inl ((hmem x).2 ⟨hx1, hx.2⟩))
      have hnd1 : (addSet cb s.subs).Nodup := by
        rw [hadd]
        exact List.Nodup.append hnd (List.nodup_singleton cb)
          (by simpa using hcbs)
      have hsub1 : ∀ x ∈ unsubbed, x ∈ cb :: subbed := fun x hx =>
        List.mem_cons_of_mem cb (hsub x hx)
      simp only [extRun, externalSubscribe]
      by_cases h0 : s.subs = []
      · simp only [h0, if_pos rfl]
        exact ih _ (cb :: subbed) unsubbed hwf
          (by simpa [h0] using hmem1) (by simpa [h0] using hnd1) hsub1
          (by simp [hp]) (by simp [hd])
      · simp only [if_neg h0]
        exact ih _ (cb :: subbed) unsubbed hwf hmem1 hnd1 hsub1 hp hd
    | unsub cb =>
      simp only [extWfOps, Bool.and_eq_true, decide_eq_true_eq] at hwf
      obtain ⟨⟨hcbs, hcbu⟩, hwf⟩ := hwf
      have hcbm : cb ∈ s.subs := (hmem cb).2 ⟨hcbs, hcbu⟩
      have hne : s.subs ≠ [] := fun h => by simp [h] at hcbm
      have hmem1 : ∀ x, x ∈ s.subs.erase cb ↔ x ∈ subbed ∧ x ∉ cb :: unsubbed := by
        intro x
        rw [List.Nodup.mem_erase_iff hnd, hmem x]
        simp only [List.mem_cons]
        constructor
        · rintro ⟨hne', hx, hu⟩
          exact ⟨hx, by rintro (rfl | hu') <;> [exact hne' rfl; exact hu hu']⟩
        · rintro ⟨hx, hu⟩
          exact ⟨fun h => hu (Or.inl h), hx, fun h => hu (Or.inr h)⟩
      have hnd1 : (s.subs.erase cb).Nodup := List.Nodup.erase cb hnd
      have hsub1 : ∀ x ∈ cb :: unsubbed, x ∈ subbed := by
        intro x hx
        rcases List.mem_cons.1 hx with rfl | hx
        · exact hcbs
        · exact hsub x hx
      simp only [extRun, externalUnsubscribe]
      by_cases h0 : s.subs.erase cb = []
      · simp only [h0, if_pos rfl, if_neg hne]
        exact ih _ subbed (cb :: unsubbed) hwf (by simpa [h0] using hmem1)
          (by simp) hsub1 (by simp [hp]) (by simp [hd])
      · simp only [if_neg h0]
        exact ih _ subbed (cb :: unsubbed) hwf hmem1 hnd1 hsub1 hp hd

/-- C6 counterexample: the same callback object subscribed twice (the JS
subscriber `Set` de-duplicates), then each of the two returned unsubscribe
closures invoked exactly once: the disposer runs twice although only one
1-to-0 subscriber-count transition occurred. -/
theorem createExternal_activation_cex :
    (extRun [ExtOp.sub 5 [], ExtOp.sub 5 [], ExtOp.unsub 5, ExtOp.unsub 5]
      extInit).disposerCalls = 2 ∧
    (extRun [ExtOp.sub 5 [], ExtOp.sub 5 [], ExtOp.unsub 5, ExtOp.unsub 5]
      extInit).down = 1 := by decide

/-- C6 amended: for every subscribe/unsubscribe sequence with pairwise
distinct subscribed callbacks, in which each returned unsubscribe is invoked
at most once (and only after its subscribe), the producer runs exactly once
per 0-to-1 subscriber transition and the disposer exactly once per 1-to-0
transition; moreover from any fully drained state a subscribe re-invokes the
producer. -/
theorem createExternal_activation_amended (ops : List ExtOp)
    (hwf : extWfOps ops [] [] = true) :
    ((extRun ops extInit).producerCalls = (extRun ops extInit).up ∧
      (extRun ops extInit).disposerCalls = (extRun ops extInit).down) ∧
    ∀ (s : ExternalSrc) (cb : Nat) (pushes : List Int), s.subs = [] →
      ((externalSubscribe pushes cb s).1).producerCalls = s.producerCalls + 1 := by
  constructor
  · exact extRun_invariant ops extInit [] [] hwf (by simp [extInit])
      (by simp [extInit]) (by simp) rfl rfl
  · intro s cb pushes h
    simp [externalSubscribe, h]

theorem createExternal_activation_amended_witness :
    extWfOps [ExtOp.sub 1 [], ExtOp.unsub 1, ExtOp.sub 2 [3]] [] [] = true ∧
    ((extRun [ExtOp.sub 1 [], ExtOp.unsub 1, ExtOp.sub 2 [3]]
        extInit).producerCalls =
      (extRun [ExtOp.sub 1 [], ExtOp.unsub 1, ExtOp.sub 2 [3]] extInit).up ∧
    (extRun [ExtOp.sub 1 [], ExtOp.unsub 1, ExtOp.sub 2 [3]]
        extInit).disposerCalls =
      (extRun [ExtOp.sub 1 [], ExtOp.unsub 1, ExtOp.sub 2 [3]] extInit).down) :=
  ⟨by decide,
    (createExternal_activation_amended
      [ExtOp.sub 1 [], ExtOp.unsub 1, ExtOp.sub 2 [3]] (by decide)).1⟩

/-- C9: for all four signal sources `subscribe(cb)` never invokes `cb`
synchronously during the subscription itself; in particular for the external
source the producer (which runs first, and whose setter may push values
synchronously) notifies only the subscriber set as it was before the
callback is added, which is empty. -/
theorem subscribe_never_fires_synchronously :
    (∀ (cb : Nat) (subs : List Nat), (stateSubscribe cb subs).2 = []) ∧
    (∀ (nDeps cb : Nat) (s : ComputedSub), (computedSubscribe nDeps cb s).2 = []) ∧
    (∀ (nSignals cb : Nat) (s : ConnectionSub),
      (connectionSubscribe nSignals cb s).2 = []) ∧
    ∀ (pushes : List Int) (cb : Nat) (s : ExternalSrc),
      (externalSubscribe pushes cb s).2 = [] := by
  refine ⟨fun _ _ => rfl, fun _ _ _ => rfl, fun _ _ _ => rfl, ?_⟩
  intro pushes cb s
  by_cases h : s.subs = []
  · simp [externalSubscribe, h, applyPushes_nil_subs]
  · simp [externalSubscribe, h]

/-!
## The Scope tree (scope.ts lines 1-47) and Context (lines 77-104)

A scope is a record `{ parent, mounted, mounts, contexts }` (`cleanups` is
not needed by the claims below).  Scopes live in a heap (a list indexed by
scope id, allocation appends), which makes the JS object graph explicit.  A
heap is well formed when every parent pointer refers to an earlier
allocation, which is an invariant of the code (a scope's parent exists when
the scope is created); under it the `onMount` parent climb terminates within
`sid` steps, so the fuelled recursion below with fuel `sid + 1` is exact.

Context values are `Option Int`, with `none` playing the role of the JS
`undefined`; a context map is an association list where `set` of a present
key replaces in place (`Map.prototype.set`).
-/

structure ScopeRec where
  parent : Option Nat
  mounted : Bool
  mounts : List Nat
  contexts : List (Nat × Option Int)
deriving DecidableEq

def mountsOf (h : List ScopeRec) (sid : Nat) : List Nat :=
  ((h[sid]?).map ScopeRec.mounts).getD []

/-- JS `Map.prototype.set`: replace in place when the key is present,
append otherwise. -/
def ctxSet (k : Nat) (v : Option Int) :
    List (Nat × Option Int) → List (Nat × Option Int)
  | [] => [(k, v)]
  | (k1, v1) :: rest =>
    if k1 = k then (k, v) :: rest else (k1, v1) :: ctxSet k v rest

/-- Raw association-list lookup: `none` when the key is absent. -/
def ctxGet (k : Nat) : List (Nat × Option Int) → Option (Option Int)
  | [] => none
  | (k1, v1) :: rest => if k1 = k then some v1 else ctxGet k rest

/-- JS `Map.prototype.get` collapses a missing key and a stored `undefined`
to the same `undefined`. -/
def jsCtxGet (k : Nat) (l : List (Nat × Option Int)) : Option Int :=
  (ctxGet k l).getD none

/-- `this.mounts.add(callback)` on the scope `sid` (no-op on a dangling id). -/
def attachMount (h : List ScopeRec) (sid : Nat) (cb : Nat) : List ScopeRec :=
  match h[sid]? with
  | none => h
  | some r => h.set sid { r with mounts := addSet cb r.mounts }

/-- `Scope.onMount` (scope.ts lines 19-25):

```
onMount(callback) {
    if (this.parent && !this.parent.mounted) {
        this.parent.onMount(callback)
    } else {
        this.mounts.add(callback)
    }
}
```
-/
def scopeOnMount : Nat → List ScopeRec → Nat → Nat → List ScopeRec
  | 0, h, sid, cb => attachMount h sid cb
  | fuel + 1, h, sid, cb =>
    match h[sid]? with
    | none => h
    | some r =>
      match r.parent with
      | none => attachMount h sid cb
      | some p =>
        match h[p]? with
        | none => attachMount h sid cb
        | some pr =>
          if pr.mounted then attachMount h sid cb
          else scopeOnMount fuel h p cb

/-- The scope whose `mounts` receives a callback registered on `sid`: the
result of the `onMount` parent climb. -/
def onMountTarget : Nat → List ScopeRec → Nat → Nat
  | 0, _, sid => sid
  | fuel + 1, h, sid =>
    match h[sid]? with
    | none => sid
    | some r =>
      match r.parent with
      | none => sid
      | some p =>
        match h[p]? with
        | none => sid
        | some pr => if pr.mounted then sid else onMountTarget fuel h p

/-- Every parent pointer refers to a strictly earlier allocation. -/
def heapWfB (h : List ScopeRec) : Bool :=
  (List.range h.length).all fun i =>
    match h[i]? with
    | none => true
    | some r =>
      match r.parent with
      | none => true
      | some p => decide (p < i)

structure SState where
  heap : List ScopeRec
  current : Option Nat
deriving DecidableEq

def stWfB (st : SState) : Bool :=
  heapWfB st.heap &&
    match st.current with
    | none => true
    | some c => decide (c < st.heap.length)

inductive SEv where
  | fire (cb : Nat)
  | runDone (sid : Nat)
  | warnNoScope
deriving DecidableEq

/-- Client programs over the scope API, deep-embedded so that executions can
be quantified over: `newRun body` is `new Scope(Scope.current)` followed by
`scope.run(body)`; `regMount cb` is the module-level `onMount(cb)` helper
(scope.ts lines 147-153), which warns and no-ops outside a scope.  Mount
callbacks themselves are inert identities: `run` fires them as events. -/
inductive SProg where
  | skip
  | seq (p q : SProg)
  | newRun (body : SProg)
  | regMount (cb : Nat)

def newScopeRec (parent : Option Nat) : ScopeRec := ⟨parent, false, [], []⟩

/-- Execution.  `Scope.run` (scope.ts lines 27-39) sets `Scope.current`,
runs the body, then fires and clears the pending `mounts`, flips
`mounted = true` and restores the previous current pointer. -/
def exec : SProg → SState → SState × List SEv
  | .skip, st => (st, [])
  | .seq p q, st =>
    let r1 := exec p st
    let r2 := exec q r1.1
    (r2.1, r1.2 ++ r2.2)
  | .regMount cb, st =>
    match st.current with
    | none => (st, [.warnNoScope])
    | some s => (⟨scopeOnMount (s + 1) st.heap s cb, st.current⟩, [])
  | .newRun body, st =>
    let sid := st.heap.length
    let r1 := exec body ⟨st.heap ++ [newScopeRec st.current], some sid⟩
    match r1.1.heap[sid]? with
    | none => (⟨r1.1.heap, st.current⟩, r1.2 ++ [.runDone sid])
    | some r =>
      (⟨r1.1.heap.set sid { r with mounts := [], mounted := true },
        st.current⟩,
        r1.2 ++ r.mounts.map .fire ++ [.runDone sid])

/-- `createContext(...).provide(value, fn)` (scope.ts lines 80-84):

```
function provide(value, fn) {
    const scope = getScope()
    scope.contexts.set(ctx, value)
    return scope.run(fn)
}
```

`getScope()` throws outside a scope, modelled by `none`. -/
def contextProvide (ctx : Nat) (v : Option Int) (body : SProg) (st : SState) :
    Option (SState × List SEv) :=
  match st.current with
  | none => none
  | some s =>
    match st.heap[s]? with
    | none => none
    | some r =>
      let h1 := st.heap.set s { r with contexts := ctxSet ctx v r.contexts }
      let r1 := exec body ⟨h1, some s⟩
      match r1.1.heap[s]? with
      | none => none
      | some r2 =>
        some (⟨r1.1.heap.set s { r2 with mounts := [], mounted := true },
               st.current⟩,
          r1.2 ++ r2.mounts.map .fire ++ [.runDone s])

/-- `createContext(...).use()` (scope.ts lines 86-94): walk the current scope
chain, skipping every scope whose stored value for the key is `undefined`
(`if (value !== undefined) return value`), and fall back to the default. -/
def useWalk (ctx : Nat) (dflt : Option Int) (h : List ScopeRec) :
    Nat → Option Nat → Option Int
  | _, none => dflt
  | 0, some _ => dflt
  | fuel + 1, some s =>
    match h[s]? with
    | none => dflt
    | some r =>
      match jsCtxGet ctx r.contexts with
      | some v => some v
      | none => useWalk ctx dflt h fuel r.parent

def contextUse (ctx : Nat) (dflt : Option Int) (h : List ScopeRec)
    (cur : Option Nat) : Option Int :=
  match cur with
  | none => dflt
  | some s => useWalk ctx dflt h (s + 1) (some s)

/-- The scope ids visited by a `use()` walk starting at `cur`. -/
def chainOf (h : List ScopeRec) : Nat → Option Nat → List Nat
  | _, none => []
  | 0, some s => [s]
  | fuel + 1, some s =>
    s :: (match h[s]? with
          | none => []
          | some r => chainOf h fuel r.parent)


/-!
## Lemmas about the scope model
-/

lemma useWalk_none (ctx : Nat) (dflt : Option Int) (h : List ScopeRec)
    (fuel : Nat) : useWalk ctx dflt h fuel none = dflt := by
  cases fuel <;> rfl

lemma useWalk_succ (ctx : Nat) (dflt : Option Int) (h : List ScopeRec)
    (fuel s : Nat) :
    useWalk ctx dflt h (fuel + 1) (some s) =
      match h[s]? with
      | none => dflt
      | some r =>
        match jsCtxGet ctx r.contexts with
        | some v => some v
        | none => useWalk ctx dflt h fuel r.parent := rfl

lemma heapWf_parent (h : List ScopeRec) (hwf : heapWfB h = true) (s : Nat)
    (r : ScopeRec) (hr : h[s]? = some r) (p : Nat) (hp : r.parent = some p) :
    p < s := by
  have hs : s < h.length := (List.getElem?_eq_some.1 hr).1
  have h2 := List.all_eq_true.1 hwf s (List.mem_range.2 hs)
  simp only [hr, hp, decide_eq_true_eq] at h2
  exact h2

lemma useWalk_fuel (ctx : Nat) (dflt : Option Int) (h : List ScopeRec)
    (hwf : heapWfB h = true) :
    ∀ s f1 f2, s < f1 → s < f2 →
      useWalk ctx dflt h f1 (some s) = useWalk ctx dflt h f2 (some s) := by
  intro s
  induction s using Nat.strong_induction_on with
  | _ s ih =>
    intro f1 f2 hf1 hf2
    obtain ⟨g1, rfl⟩ : ∃ g1, f1 = g1 + 1 := ⟨f1 - 1, by omega⟩
    obtain ⟨g2, rfl⟩ : ∃ g2, f2 = g2 + 1 := ⟨f2 - 1, by omega⟩
    rw [useWalk_succ, useWalk_succ]
    cases hr : h[s]? with
    | none => rfl
    | some r =>
      cases hv : jsCtxGet ctx r.contexts with
      | some v => simp only [hv]
      | none =>
        simp only [hv]
        cases hp : r.parent with
        | none => rw [useWalk_none, useWalk_none]
        | some p =>
          have hps := heapWf_parent h hwf s r hr p hp
          exact ih p hps g1 g2 (by omega) (by omega)

lemma useWalk_default (ctx : Nat) (dflt : Option Int) (h : List ScopeRec) :
    ∀ (fuel : Nat) (cur : Option Nat),
      (∀ t ∈ chainOf h fuel cur, ∀ rt, h[t]? = some rt →
          jsCtxGet ctx rt.contexts = none) →
      useWalk ctx dflt h fuel cur = dflt := by
  intro fuel
  induction fuel with
  | zero => intro cur hc; cases cur <;> rfl
  | succ f ih =>
    intro cur hc
    cases cur with
    | none => rfl
    | some s =>
      rw [useWalk_succ]
      cases hr : h[s]? with
      | none => rfl
      | some r =>
        have hs := hc s (by simp [chainOf]) r hr
        simp only [hs]
        apply ih
        intro t ht rt hrt
        refine hc t ?_ rt hrt
        simp only [chainOf, hr, List.mem_cons]
        exact Or.inr ht

/-- C10: a context value stored as `undefined` on a scope is treated by
`use()` as no mapping at all: the lookup continues with the scope's
ancestors, and if every scope on the chain maps the key to `undefined` (or
not at all) the context's default value is returned. -/
theorem contextUse_undefined_value (h : List ScopeRec) (s : Nat) (r : ScopeRec)
    (ctx : Nat) (dflt : Option Int)
    (hwf : heapWfB h = true) (hr : h[s]? = some r)
    (hstored : ctxGet ctx r.contexts = some none) :
    contextUse ctx dflt h (some s) = contextUse ctx dflt h r.parent ∧
    ((∀ t ∈ chainOf h (s + 1) (some s), ∀ rt, h[t]? = some rt →
        jsCtxGet ctx rt.contexts = none) →
      contextUse ctx dflt h (some s) = dflt) := by
  constructor
  · have hjs : jsCtxGet ctx r.contexts = none := by simp [jsCtxGet, hstored]
    show useWalk ctx dflt h (s + 1) (some s) = contextUse ctx dflt h r.parent
    rw [useWalk_succ]
    simp only [hr, hjs]
    cases hp : r.parent with
    | none => rw [useWalk_none]; rfl
    | some p =>
      have hps := heapWf_parent h hwf s r hr p hp
      show useWalk ctx dflt h s (some p) = useWalk ctx dflt h (p + 1) (some p)
      exact useWalk_fuel ctx dflt h hwf p s (p + 1) hps (by omega)
  · intro hc
    exact useWalk_default ctx dflt h (s + 1) (some s) hc

theorem contextUse_undefined_value_witness :
    heapWfB [⟨none, false, [], [(1, some 5)]⟩, ⟨some 0, false, [], [(1, none)]⟩] = true ∧
    ([(⟨none, false, [], [(1, some 5)]⟩ : ScopeRec),
      ⟨some 0, false, [], [(1, none)]⟩][1]? =
        some (⟨some 0, false, [], [(1, none)]⟩ : ScopeRec)) ∧
    ctxGet 1 [(1, none)] = some none ∧
    (contextUse 1 (some 9)
        [⟨none, false, [], [(1, some 5)]⟩, ⟨some 0, false, [], [(1, none)]⟩]
        (some 1) =
      contextUse 1 (some 9)
        [⟨none, false, [], [(1, some 5)]⟩, ⟨some 0, false, [], [(1, none)]⟩]
        (ScopeRec.parent ⟨some 0, false, [], [(1, none)]⟩) ∧
    ((∀ t ∈ chainOf
          [⟨none, false, [], [(1, some 5)]⟩, ⟨some 0, false, [], [(1, none)]⟩]
          2 (some 1), ∀ rt,
        [(⟨none, false, [], [(1, some 5)]⟩ : ScopeRec),
          ⟨some 0, false, [], [(1, none)]⟩][t]? = some rt →
        jsCtxGet 1 rt.contexts = none) →
      contextUse 1 (some 9)
        [⟨none, false, [], [(1, some 5)]⟩, ⟨some 0, false, [], [(1, none)]⟩]
        (some 1) = some 9)) :=
  ⟨by decide, by decide, by decide,
    contextUse_undefined_value
      [⟨none, false, [], [(1, some 5)]⟩, ⟨some 0, false, [], [(1, none)]⟩]
      1 ⟨some 0, false, [], [(1, none)]⟩ 1 (some 9)
      (by decide) (by decide) (by decide)⟩

lemma ctxSet_ctxSet (k : Nat) (v1 v2 : Option Int)
    (l : List (Nat × Option Int)) :
    ctxSet k v2 (ctxSet k v1 l) = ctxSet k v2 l := by
  induction l with
  | nil => simp [ctxSet]
  | cons kv rest ih =>
    obtain ⟨k1, w⟩ := kv
    by_cases hk : k1 = k
    · subst hk
      simp [ctxSet]
    · simp [ctxSet, hk, ih]

lemma contextProvide_eq (ctx : Nat) (v : Option Int) (body : SProg)
    (st : SState) (s : Nat) (r : ScopeRec) (r2 : ScopeRec)
    (hcur : st.current = some s) (hr : st.heap[s]? = some r)
    (hr2 : (exec body ⟨st.heap.set s
        { r with contexts := ctxSet ctx v r.contexts }, some s⟩).1.heap[s]? =
      some r2) :
    contextProvide ctx v body st =
      some (⟨(exec body ⟨st.heap.set s
                { r with contexts := ctxSet ctx v r.contexts },
              some s⟩).1.heap.set s { r2 with mounts := [], mounted := true },
             st.current⟩,
        (exec body ⟨st.heap.set s
            { r with contexts := ctxSet ctx v r.contexts }, some s⟩).2 ++
          r2.mounts.map SEv.fire ++ [SEv.runDone s]) := by
  simp only [contextProvide, hcur, hr, hr2]

/-- C5 counterexample: a scope with one pending mount callback and
`mounted = false`; `provide` on it (with `fn` doing nothing) fires the
pending mount callback and flips the scope's `mounted` flag, because
`provide` runs `fn` through `scope.run(fn)` (scope.ts line 83), whose
completion path fires and clears `mounts` and sets `mounted = true`.  The
claim that provide fires no pending mounts and leaves the mounted flag
unchanged is therefore false. -/
theorem createContext_provide_cex :
    contextProvide 1 (some 5) SProg.skip ⟨[⟨none, false, [7], []⟩], some 0⟩ =
      some (⟨[⟨none, true, [], [(1, some 5)]⟩], some 0⟩,
            [SEv.fire 7, SEv.runDone 0]) := by decide

/-- C5 amended: `provide(value, fn)` writes the value into the caller's own
scope's context map (the same scope: no new scope is allocated) and runs
`fn` under that same scope via `scope.run`, which on completion fires the
scope's pending mount callbacks, clears them, and sets its mounted flag; a
repeated `provide` for the same context key on the same scope overwrites the
previous value. -/
theorem createContext_provide_amended (st : SState) (s : Nat) (r : ScopeRec)
    (ctx : Nat) (v v2 : Option Int)
    (hcur : st.current = some s) (hr : st.heap[s]? = some r) :
    ∃ st1 evs,
      contextProvide ctx v SProg.skip st = some (st1, evs) ∧
      st1.heap.length = st.heap.length ∧
      st1.current = st.current ∧
      st1.heap[s]? = some { r with contexts := ctxSet ctx v r.contexts,
                                   mounts := [], mounted := true } ∧
      evs = r.mounts.map SEv.fire ++ [SEv.runDone s] ∧
      ∃ st2 evs2,
        contextProvide ctx v2 SProg.skip st1 = some (st2, evs2) ∧
        st2.heap[s]? = some { r with contexts := ctxSet ctx v2 r.contexts,
                                     mounts := [], mounted := true } := by
  have hs : s < st.heap.length := (List.getElem?_eq_some.1 hr).1
  have hset : ∀ (h0 : List ScopeRec) (a : ScopeRec),
      h0.length = st.heap.length → (h0.set s a)[s]? = some a := by
    intro h0 a hlen
    rw [List.getElem?_set_self']
    simp [hlen, hs]
  have h1 := contextProvide_eq ctx v SProg.skip st s r
    { r with contexts := ctxSet ctx v r.contexts } hcur hr
    (by simp only [exec]; exact hset st.heap _ rfl)
  simp only [exec, List.set_set, List.nil_append] at h1
  refine ⟨_, _, h1, by simp, rfl, hset st.heap _ rfl, rfl, ?_⟩
  have h2 := contextProvide_eq ctx v2 SProg.skip
    (⟨st.heap.set s { r with contexts := ctxSet ctx v r.contexts,
                             mounts := [], mounted := true },
      st.current⟩ : SState) s
    { r with contexts := ctxSet ctx v r.contexts, mounts := [],
             mounted := true }
    { r with contexts := ctxSet ctx v2 (ctxSet ctx v r.contexts),
             mounts := [], mounted := true }
    hcur (hset st.heap _ rfl)
    (by simp only [exec]
        rw [List.set_set]
        exact hset st.heap _ rfl)
  simp only [exec, List.set_set, List.nil_append, ctxSet_ctxSet,
    List.map_nil] at h2
  exact ⟨_, _, h2, by rw [hset st.heap _ rfl]⟩

theorem createContext_provide_amended_witness :
    (⟨[⟨none, false, [7], []⟩], some 0⟩ : SState).current = some 0 ∧
    (⟨[⟨none, false, [7], []⟩], some 0⟩ : SState).heap[0]? =
      some ⟨none, false, [7], []⟩ ∧
    ∃ st1 evs,
      contextProvide 1 (some 5) SProg.skip
          ⟨[⟨none, false, [7], []⟩], some 0⟩ = some (st1, evs) ∧
      st1.heap.length =
        (⟨[⟨none, false, [7], []⟩], some 0⟩ : SState).heap.length ∧
      st1.current = (⟨[⟨none, false, [7], []⟩], some 0⟩ : SState).current ∧
      st1.heap[0]? = some { (⟨none, false, [7], []⟩ : ScopeRec) with
                              contexts := ctxSet 1 (some 5) [],
                              mounts := [], mounted := true } ∧
      evs = (ScopeRec.mounts ⟨none, false, [7], []⟩).map SEv.fire ++
        [SEv.runDone 0] ∧
      ∃ st2 evs2,
        contextProvide 1 (some 6) SProg.skip st1 = some (st2, evs2) ∧
        st2.heap[0]? = some { (⟨none, false, [7], []⟩ : ScopeRec) with
                                contexts := ctxSet 1 (some 6) [],
                                mounts := [], mounted := true } :=
  ⟨rfl, rfl,
    createContext_provide_amended ⟨[⟨none, false, [7], []⟩], some 0⟩ 0
      ⟨none, false, [7], []⟩ 1 (some 5) (some 6) rfl rfl⟩

/-!
## Lemmas for the onMount delegation claim
-/

/-- The mount callbacks syntactically registered by a program. -/
def progCbs : SProg → List Nat
  | .skip => []
  | .seq p q => progCbs p ++ progCbs q
  | .newRun b => progCbs b
  | .regMount cb => [cb]

/-- A tower of `n` nested `new Scope(current); scope.run(...)` calls around
an innermost program. -/
def nestProg : Nat → SProg → SProg
  | 0, inner => inner
  | n + 1, inner => .newRun (nestProg n inner)

lemma exec_seq (p q : SProg) (st : SState) :
    exec (.seq p q) st =
      ((exec q (exec p st).1).1, (exec p st).2 ++ (exec q (exec p st).1).2) :=
  rfl

lemma exec_regMount_some (cb s : Nat) (st : SState)
    (hcur : st.current = some s) :
    exec (.regMount cb) st =
      (⟨scopeOnMount (s + 1) st.heap s cb, st.current⟩, []) := by
  simp only [exec, hcur]

lemma exec_newRun (body : SProg) (st : SState) (r : ScopeRec)
    (hr : (exec body ⟨st.heap ++ [newScopeRec st.current],
        some st.heap.length⟩).1.heap[st.heap.length]? = some r) :
    exec (.newRun body) st =
      (⟨(exec body ⟨st.heap ++ [newScopeRec st.current],
           some st.heap.length⟩).1.heap.set st.heap.length
           { r with mounts := [], mounted := true },
        st.current⟩,
       (exec body ⟨st.heap ++ [newScopeRec st.current],
          some st.heap.length⟩).2 ++ r.mounts.map SEv.fire ++
         [SEv.runDone st.heap.length]) := by
  simp only [exec, hr]

lemma attachMount_length (h : List ScopeRec) (sid cb : Nat) :
    (attachMount h sid cb).length = h.length := by
  simp only [attachMount]
  split
  · rfl
  · simp

lemma scopeOnMount_length : ∀ (fuel : Nat) (h : List ScopeRec) (sid cb : Nat),
    (scopeOnMount fuel h sid cb).length = h.length := by
  intro fuel
  induction fuel with
  | zero => intro h sid cb; exact attachMount_length h sid cb
  | succ f ih =>
    intro h sid cb
    simp only [scopeOnMount]
    split
    · rfl
    · split
      · exact attachMount_length h sid cb
      · split
        · exact attachMount_length h sid cb
        · split
          · exact attachMount_length h sid cb
          · exact ih h _ cb

lemma exec_heap_len (p : SProg) : ∀ st : SState,
    st.heap.length ≤ (exec p st).1.heap.length := by
  induction p with
  | skip => intro st; exact le_refl _
  | seq p q ihp ihq =>
    intro st
    exact le_trans (ihp st) (ihq (exec p st).1)
  | newRun body ih =>
    intro st
    have hb := ih ⟨st.heap ++ [newScopeRec st.current], some st.heap.length⟩
    simp only [List.length_append, List.length_singleton] at hb
    simp only [exec]
    split
    · dsimp only
      omega
    · dsimp only
      simp only [List.length_set]
      omega
  | regMount cb =>
    intro st
    cases hcur : st.current with
    | none => simp [exec, hcur]
    | some s =>
      simp only [exec, hcur, scopeOnMount_length]
      exact le_refl _

lemma exec_current (p : SProg) : ∀ st : SState,
    (exec p st).1.current = st.current := by
  induction p with
  | skip => intro st; rfl
  | seq p q ihp ihq =>
    intro st
    rw [exec_seq]
    simp only [ihq, ihp]
  | newRun body ih =>
    intro st
    simp only [exec]
    split
    · rfl
    · rfl
  | regMount cb =>
    intro st
    cases hcur : st.current with
    | none => simp [exec, hcur]
    | some s => simp [exec, hcur]

lemma mountsOf_out (h : List ScopeRec) (sid : Nat) (hsid : h.length ≤ sid) :
    mountsOf h sid = [] := by
  simp [mountsOf, List.getElem?_eq_none hsid]

lemma mountsOf_some (h : List ScopeRec) (sid : Nat) (r : ScopeRec)
    (hr : h[sid]? = some r) : mountsOf h sid = r.mounts := by
  simp [mountsOf, hr]

lemma mountsOf_append (h : List ScopeRec) (x : ScopeRec) (sid : Nat)
    (hsid : sid < h.length) : mountsOf (h ++ [x]) sid = mountsOf h sid := by
  simp [mountsOf, List.getElem?_append_left hsid]

lemma mountsOf_append_self (h : List ScopeRec) (x : ScopeRec) :
    mountsOf (h ++ [x]) h.length = x.mounts := by
  simp [mountsOf]

lemma mountsOf_set_self (h : List ScopeRec) (sid : Nat) (r : ScopeRec)
    (hsid : sid < h.length) : mountsOf (h.set sid r) sid = r.mounts := by
  unfold mountsOf
  rw [List.getElem?_set_self']
  simp [hsid]

lemma mountsOf_set_ne (h : List ScopeRec) (i j : Nat) (r : ScopeRec)
    (hij : i ≠ j) : mountsOf (h.set i r) j = mountsOf h j := by
  unfold mountsOf
  rw [List.getElem?_set_ne hij]

lemma attachMount_eq (h : List ScopeRec) (t : Nat) (r : ScopeRec) (cb : Nat)
    (hr : h[t]? = some r) :
    attachMount h t cb = h.set t { r with mounts := addSet cb r.mounts } := by
  simp only [attachMount, hr]

lemma attachMount_none (h : List ScopeRec) (t cb : Nat) (hr : h[t]? = none) :
    attachMount h t cb = h := by
  simp only [attachMount, hr]

lemma attachMount_mountsOf_ne (h : List ScopeRec) (t cb u : Nat) (hu : u ≠ t) :
    mountsOf (attachMount h t cb) u = mountsOf h u := by
  simp only [attachMount]
  split
  · rfl
  · exact mountsOf_set_ne h t u _ (fun heq => hu heq.symm)

/-- The `onMount` recursion attaches the callback exactly at the scope the
parent climb stops at. -/
lemma scopeOnMount_eq_attach : ∀ (fuel : Nat) (h : List ScopeRec) (s cb : Nat),
    scopeOnMount fuel h s cb = attachMount h (onMountTarget fuel h s) cb := by
  intro fuel
  induction fuel with
  | zero => intro h s cb; rfl
  | succ f ih =>
    intro h s cb
    simp only [scopeOnMount, onMountTarget]
    split
    · next heq => rw [attachMount_none h s cb heq]
    · split
      · rfl
      · split
        · rfl
        · split
          · rfl
          · exact ih h _ cb

lemma onMountTarget_parent_none (h : List ScopeRec) (s fuel : Nat)
    (r : ScopeRec) (hr : h[s]? = some r) (hp : r.parent = none) :
    onMountTarget (fuel + 1) h s = s := by
  simp [onMountTarget, hr, hp]

lemma onMountTarget_parent_mounted (h : List ScopeRec) (s fuel : Nat)
    (r : ScopeRec) (p : Nat) (pr : ScopeRec) (hr : h[s]? = some r)
    (hp : r.parent = some p) (hpr : h[p]? = some pr)
    (hm : pr.mounted = true) :
    onMountTarget (fuel + 1) h s = s := by
  simp [onMountTarget, hr, hp, hpr, hm]

lemma onMountTarget_step (h : List ScopeRec) (s fuel : Nat) (r : ScopeRec)
    (p : Nat) (pr : ScopeRec) (hr : h[s]? = some r) (hp : r.parent = some p)
    (hpr : h[p]? = some pr) (hm : pr.mounted = false) :
    onMountTarget (fuel + 1) h s = onMountTarget fuel h p := by
  simp [onMountTarget, hr, hp, hpr, hm]

lemma onMountTarget_fuel (h : List ScopeRec) (hwf : heapWfB h = true) :
    ∀ s f1 f2, s < f1 → s < f2 →
      onMountTarget f1 h s = onMountTarget f2 h s := by
  intro s
  induction s using Nat.strong_induction_on with
  | _ s ih =>
    intro f1 f2 hf1 hf2
    obtain ⟨g1, rfl⟩ : ∃ g1, f1 = g1 + 1 := ⟨f1 - 1, by omega⟩
    obtain ⟨g2, rfl⟩ : ∃ g2, f2 = g2 + 1 := ⟨f2 - 1, by omega⟩
    cases hr : h[s]? with
    | none => simp [onMountTarget, hr]
    | some r =>
      cases hp : r.parent with
      | none => simp [onMountTarget, hr, hp]
      | some p =>
        cases hpr : h[p]? with
        | none => simp [onMountTarget, hr, hp, hpr]
        | some pr =>
          by_cases hm : pr.mounted = true
          · simp [onMountTarget, hr, hp, hpr, hm]
          · simp only [Bool.not_eq_true] at hm
            rw [onMountTarget_step h s g1 r p pr hr hp hpr hm,
                onMountTarget_step h s g2 r p pr hr hp hpr hm]
            have hps := heapWf_parent h hwf s r hr p hp
            exact ih p hps g1 g2 (by omega) (by omega)

lemma onMountTarget_extend (h hext : List ScopeRec) (hwf : heapWfB h = true)
    (hagree : ∀ i, i < h.length → hext[i]? = h[i]?) :
    ∀ fuel s, s < h.length →
      onMountTarget fuel hext s = onMountTarget fuel h s := by
  intro fuel
  induction fuel with
  | zero => intro s hs; rfl
  | succ f ih =>
    intro s hs
    have hr1 := hagree s hs
    cases hr : h[s]? with
    | none =>
      rw [hr] at hr1
      simp [onMountTarget, hr, hr1]
    | some r =>
      rw [hr] at hr1
      cases hp : r.parent with
      | none => simp [onMountTarget, hr, hr1, hp]
      | some p =>
        have hps := heapWf_parent h hwf s r hr p hp
        have hpr1 := hagree p (lt_trans hps hs)
        cases hpr : h[p]? with
        | none =>
          rw [hpr] at hpr1
          simp [onMountTarget, hr, hr1, hp, hpr, hpr1]
        | some pr =>
          rw [hpr] at hpr1
          by_cases hm : pr.mounted = true
          · simp [onMountTarget, hr, hr1, hp, hpr, hpr1, hm]
          · simp only [Bool.not_eq_true] at hm
            rw [onMountTarget_step hext s f r p pr hr1 hp hpr1 hm,
                onMountTarget_step h s f r p pr hr hp hpr hm]
            exact ih p (lt_trans hps hs)

lemma heapWfB_set (h : List ScopeRec) (i : Nat) (r r2 : ScopeRec)
    (hr : h[i]? = some r) (hpp : r2.parent = r.parent)
    (hwf : heapWfB h = true) : heapWfB (h.set i r2) = true := by
  have hlen : i < h.length := (List.getElem?_eq_some.1 hr).1
  unfold heapWfB at hwf ⊢
  rw [List.length_set]
  rw [List.all_eq_true] at hwf ⊢
  intro j hj
  by_cases hij : i = j
  · subst hij
    have hw := hwf i hj
    simp only [hr] at hw
    rw [List.getElem?_set_self']
    simpa [List.length_set, hlen, hpp] using hw
  · rw [List.getElem?_set_ne hij]
    exact hwf j hj

lemma heapWfB_append (h : List ScopeRec) (x : ScopeRec)
    (hwf : heapWfB h = true)
    (hx : ∀ c, x.parent = some c → c < h.length) :
    heapWfB (h ++ [x]) = true := by
  unfold heapWfB at hwf ⊢
  rw [List.all_eq_true] at hwf ⊢
  intro j hj
  rw [List.mem_range, List.length_append, List.length_singleton] at hj
  by_cases hjl : j < h.length
  · rw [List.getElem?_append_left hjl]
    exact hwf j (List.mem_range.2 hjl)
  · have hje : j = h.length := by omega
    subst hje
    rw [List.getElem?_concat_length]
    cases hxp : x.parent with
    | none => simp [hxp]
    | some c => simp [hxp, hx c hxp]

lemma heapWfB_attach (h : List ScopeRec) (t cb : Nat)
    (hwf : heapWfB h = true) : heapWfB (attachMount h t cb) = true := by
  simp only [attachMount]
  split
  · exact hwf
  · next r heq => exact heapWfB_set h t r _ heq rfl hwf

lemma stWfB_intro (h : List ScopeRec) (cur : Option Nat)
    (hh : heapWfB h = true)
    (hc : ∀ c, cur = some c → c < h.length) :
    stWfB ⟨h, cur⟩ = true := by
  unfold stWfB
  rw [Bool.and_eq_true]
  refine ⟨hh, ?_⟩
  cases hcur : cur with
  | none => rfl
  | some c => simpa using hc c hcur

lemma stWfB_heap (st : SState) (h : stWfB st = true) :
    heapWfB st.heap = true := by
  unfold stWfB at h
  rw [Bool.and_eq_true] at h
  exact h.1

lemma stWfB_cur (st : SState) (c : Nat) (h : stWfB st = true)
    (hc : st.current = some c) : c < st.heap.length := by
  unfold stWfB at h
  rw [Bool.and_eq_true] at h
  have h2 := h.2
  rw [hc] at h2
  simpa using h2

lemma exec_wf (p : SProg) : ∀ st : SState,
    stWfB st = true → stWfB (exec p st).1 = true := by
  induction p with
  | skip => intro st h; exact h
  | seq p q ihp ihq =>
    intro st h
    rw [exec_seq]
    exact ihq _ (ihp _ h)
  | regMount cb =>
    intro st h
    cases hcur : st.current with
    | none => simpa [exec, hcur] using h
    | some s =>
      rw [exec_regMount_some cb s st hcur]
      apply stWfB_intro
      · rw [scopeOnMount_eq_attach]
        exact heapWfB_attach st.heap _ cb (stWfB_heap st h)
      · intro c hc
        rw [scopeOnMount_length]
        exact stWfB_cur st c h hc
  | newRun body ih =>
    intro st h
    have hwf1 : stWfB ⟨st.heap ++ [newScopeRec st.current],
        some st.heap.length⟩ = true := by
      apply stWfB_intro
      · apply heapWfB_append st.heap _ (stWfB_heap st h)
        intro c hcp
        simp only [newScopeRec] at hcp
        exact stWfB_cur st c h hcp
      · intro c hc
        simp only [Option.some.injEq] at hc
        subst hc
        simp
    have hb := ih _ hwf1
    have hlen : st.heap.length <
        (exec body ⟨st.heap ++ [newScopeRec st.current],
          some st.heap.length⟩).1.heap.length := by
      have := exec_heap_len body ⟨st.heap ++ [newScopeRec st.current],
        some st.heap.length⟩
      simp only [List.length_append, List.length_singleton] at this
      omega
    simp only [exec]
    split
    · apply stWfB_intro
      · exact stWfB_heap _ hb
      · intro c hc
        have := stWfB_cur st c h hc
        omega
    · next r heq =>
      apply stWfB_intro
      · exact heapWfB_set _ _ r _ heq rfl (stWfB_heap _ hb)
      · intro c hc
        rw [List.length_set]
        have := stWfB_cur st c h hc
        omega

lemma exec_frame (p : SProg) : ∀ (st : SState) (sid : Nat) (r : ScopeRec),
    st.heap[sid]? = some r →
    ∃ ext, (exec p st).1.heap[sid]? =
      some { r with mounts := r.mounts ++ ext } := by
  induction p with
  | skip =>
    intro st sid r hr
    exact ⟨[], by simpa [exec] using hr⟩
  | seq p q ihp ihq =>
    intro st sid r hr
    obtain ⟨e1, h1⟩ := ihp st sid r hr
    obtain ⟨e2, h2⟩ := ihq (exec p st).1 sid _ h1
    refine ⟨e1 ++ e2, ?_⟩
    rw [exec_seq]
    dsimp only
    dsimp only at h2
    rw [h2]
    simp [List.append_assoc]
  | regMount cb2 =>
    intro st sid r hr
    cases hcur : st.current with
    | none => exact ⟨[], by simpa [exec, hcur] using hr⟩
    | some s =>
      rw [exec_regMount_some cb2 s st hcur]
      dsimp only
      rw [scopeOnMount_eq_attach]
      simp only [attachMount]
      split
      · exact ⟨[], by simpa using hr⟩
      · next rt heq =>
        by_cases hts : onMountTarget (s + 1) st.heap s = sid
        · rw [hts] at heq
          have hrr : rt = r := by
            rw [heq] at hr
            exact Option.some.inj hr
          subst hrr
          have hlen : sid < st.heap.length := (List.getElem?_eq_some.1 hr).1
          rw [hts]
          unfold addSet
          split
          · refine ⟨[], ?_⟩
            rw [List.getElem?_set_self']
            simp [hlen]
          · refine ⟨[cb2], ?_⟩
            rw [List.getElem?_set_self']
            simp [hlen]
        · refine ⟨[], ?_⟩
          rw [List.getElem?_set_ne hts]
          simpa using hr
  | newRun body ih =>
    intro st sid r hr
    have hsid : sid < st.heap.length := (List.getElem?_eq_some.1 hr).1
    have hr1 : (st.heap ++ [newScopeRec st.current])[sid]? = some r := by
      rw [List.getElem?_append_left hsid]
      exact hr
    obtain ⟨e, he⟩ := ih ⟨st.heap ++ [newScopeRec st.current],
      some st.heap.length⟩ sid r hr1
    simp only [exec]
    split
    · exact ⟨e, he⟩
    · refine ⟨e, ?_⟩
      dsimp only
      rw [List.getElem?_set_ne (by omega)]
      exact he

lemma exec_cb_free (cb : Nat) (p : SProg) : ∀ (st : SState),
    cb ∉ progCbs p →
    (∀ sid, (mountsOf (exec p st).1.heap sid).count cb =
      (mountsOf st.heap sid).count cb) ∧
    SEv.fire cb ∉ (exec p st).2 := by
  induction p with
  | skip =>
    intro st _
    exact ⟨fun sid => rfl, by simp [exec]⟩
  | seq p q ihp ihq =>
    intro st hcb
    simp only [progCbs, List.mem_append] at hcb
    push_neg at hcb
    obtain ⟨h1, h2⟩ := ihp st hcb.1
    obtain ⟨h3, h4⟩ := ihq (exec p st).1 hcb.2
    rw [exec_seq]
    refine ⟨fun sid => ?_, ?_⟩
    · dsimp only
      rw [h3 sid, h1 sid]
    · dsimp only
      simp only [List.mem_append]
      rintro (hm | hm)
      · exact h2 hm
      · exact h4 hm
  | regMount cb2 =>
    intro st hcb
    simp only [progCbs, List.mem_singleton] at hcb
    cases hcur : st.current with
    | none => exact ⟨fun sid => by simp [exec, hcur], by simp [exec, hcur]⟩
    | some s =>
      rw [exec_regMount_some cb2 s st hcur]
      refine ⟨fun sid => ?_, by simp⟩
      dsimp only
      rw [scopeOnMount_eq_attach]
      by_cases hts : sid = onMountTarget (s + 1) st.heap s
      · subst hts
        simp only [attachMount]
        split
        · rfl
        · next rt heq =>
          rw [mountsOf_set_self _ _ _ (List.getElem?_eq_some.1 heq).1,
            mountsOf_some _ _ _ heq]
          unfold addSet
          split
          · rfl
          · simp [List.count_append, List.count_cons, hcb]
      · rw [attachMount_mountsOf_ne st.heap _ cb2 sid hts]
  | newRun body ih =>
    intro st hcb
    simp only [progCbs] at hcb
    obtain ⟨h1, h2⟩ := ih ⟨st.heap ++ [newScopeRec st.current],
      some st.heap.length⟩ hcb
    have hlen2 : st.heap.length <
        (exec body ⟨st.heap ++ [newScopeRec st.current],
          some st.heap.length⟩).1.heap.length := by
      have := exec_heap_len body ⟨st.heap ++ [newScopeRec st.current],
        some st.heap.length⟩
      simp only [List.length_append, List.length_singleton] at this
      omega
    have hmnt : ∀ sid,
        (mountsOf (st.heap ++ [newScopeRec st.current]) sid).count cb =
        (mountsOf st.heap sid).count cb := by
      intro sid
      by_cases hlt : sid < st.heap.length
      · rw [mountsOf_append _ _ _ hlt]
      · by_cases heq : sid = st.heap.length
        · subst heq
          rw [mountsOf_append_self, mountsOf_out st.heap _ (le_refl _)]
          rfl
        · rw [mountsOf_out _ _ (by simp only [List.length_append,
              List.length_singleton]; omega),
            mountsOf_out _ _ (by omega)]
    simp only [exec]
    split
    · refine ⟨fun sid => ?_, ?_⟩
      · dsimp only
        rw [h1 sid, hmnt sid]
      · dsimp only
        simp only [List.mem_append]
        rintro (hm | hm)
        · exact h2 hm
        · simp at hm
    · next rn heq =>
      have hcbrn : cb ∉ rn.mounts := by
        have hcnt := h1 st.heap.length
        rw [mountsOf_some _ _ _ heq, hmnt st.heap.length,
          mountsOf_out st.heap _ (le_refl _)] at hcnt
        exact List.count_eq_zero.1 hcnt
      refine ⟨fun sid => ?_, ?_⟩
      · dsimp only
        by_cases hse : sid = st.heap.length
        · subst hse
          rw [mountsOf_set_self _ _ _ hlen2,
            mountsOf_out st.heap _ (le_refl _)]
        · rw [mountsOf_set_ne _ _ _ _ (fun hh => hse hh.symm), h1 sid,
            hmnt sid]
      · dsimp only
        simp only [List.mem_append]
        rintro ((hm | hm) | hm)
        · exact h2 hm
        · rw [List.mem_map] at hm
          obtain ⟨x, hx, hfx⟩ := hm
          have hxcb : x = cb := by injection hfx
          subst hxcb
          exact hcbrn hx
        · simp at hm

lemma exec_nest (cb : Nat) : ∀ (n : Nat) (st : SState) (c : Nat),
    stWfB st = true →
    st.current = some c →
    (∀ rc, st.heap[c]? = some rc → rc.mounted = false) →
    onMountTarget (c + 1) st.heap c = 0 →
    (∀ r0, st.heap[0]? = some r0 → r0.parent = none ∧ r0.mounted = false) →
    0 < st.heap.length →
    (∀ sid, cb ∉ mountsOf st.heap sid) →
    mountsOf (exec (nestProg n (.regMount cb)) st).1.heap 0 =
      mountsOf st.heap 0 ++ [cb] ∧
    (∀ sid, sid ≠ 0 →
      cb ∉ mountsOf (exec (nestProg n (.regMount cb)) st).1.heap sid) ∧
    SEv.fire cb ∉ (exec (nestProg n (.regMount cb)) st).2 := by
  intro n
  induction n with
  | zero =>
    intro st c hwf hcur hmc htgt h0 hpos hall
    obtain ⟨r0, hr0⟩ : ∃ r0, st.heap[0]? = some r0 :=
      ⟨st.heap[0], List.getElem?_eq_getElem hpos⟩
    have hcb0 : cb ∉ r0.mounts := by
      have := hall 0
      rwa [mountsOf_some _ _ _ hr0] at this
    have hadd : addSet cb r0.mounts = r0.mounts ++ [cb] := by
      simp [addSet, hcb0]
    simp only [nestProg]
    rw [exec_regMount_some cb c st hcur]
    dsimp only
    rw [scopeOnMount_eq_attach, htgt, attachMount_eq st.heap 0 r0 cb hr0]
    refine ⟨?_, fun sid hsid => ?_, by simp⟩
    · rw [mountsOf_set_self _ _ _ hpos, mountsOf_some _ _ _ hr0]
      simpa using hadd
    · rw [mountsOf_set_ne _ _ _ _ (fun hh => hsid hh.symm)]
      exact hall sid
  | succ n ih =>
    intro st c hwf hcur hmc htgt h0 hpos hall
    have hclt : c < st.heap.length := stWfB_cur st c hwf hcur
    obtain ⟨rc, hrc⟩ : ∃ rc, st.heap[c]? = some rc :=
      ⟨st.heap[c], List.getElem?_eq_getElem hclt⟩
    have hagree : ∀ i, i < st.heap.length →
        (st.heap ++ [newScopeRec st.current])[i]? = st.heap[i]? := by
      intro i hi
      exact List.getElem?_append_left hi
    have hnew : (st.heap ++ [newScopeRec st.current])[st.heap.length]? =
        some (newScopeRec st.current) := List.getElem?_concat_length _ _
    have hwf1 : stWfB ⟨st.heap ++ [newScopeRec st.current],
        some st.heap.length⟩ = true := by
      apply stWfB_intro
      · apply heapWfB_append st.heap _ (stWfB_heap st hwf)
        intro c2 hc2
        simp only [newScopeRec, hcur] at hc2
        have : c2 = c := by
          injection hc2 with hc3
          exact hc3.symm
        subst this
        exact hclt
      · intro c2 hc2
        simp only [Option.some.injEq] at hc2
        subst hc2
        simp
    have htgt1 : onMountTarget (st.heap.length + 1)
        (st.heap ++ [newScopeRec st.current]) st.heap.length = 0 := by
      have hstep := onMountTarget_step (st.heap ++ [newScopeRec st.current])
        st.heap.length st.heap.length (newScopeRec st.current) c rc
        hnew (by simp [newScopeRec, hcur])
        (by rw [hagree c hclt]; exact hrc) (hmc rc hrc)
      rw [hstep]
      rw [onMountTarget_extend st.heap (st.heap ++ [newScopeRec st.current])
        (stWfB_heap st hwf) hagree st.heap.length c hclt]
      rw [onMountTarget_fuel st.heap (stWfB_heap st hwf) c st.heap.length
        (c + 1) hclt (by omega)]
      exact htgt
    have hall1 : ∀ sid, cb ∉
        mountsOf (st.heap ++ [newScopeRec st.current]) sid := by
      intro sid
      by_cases hlt : sid < st.heap.length
      · rw [mountsOf_append _ _ _ hlt]
        exact hall sid
      · by_cases heq : sid = st.heap.length
        · subst heq
          rw [mountsOf_append_self]
          simp [newScopeRec]
        · rw [mountsOf_out _ _ (by simp only [List.length_append,
            List.length_singleton]; omega)]
          simp
    obtain ⟨iha, ihb, ihc⟩ := ih
      ⟨st.heap ++ [newScopeRec st.current], some st.heap.length⟩
      st.heap.length hwf1 rfl
      (fun rc2 hrc2 => by
        rw [hnew] at hrc2
        injection hrc2 with hrc3
        rw [← hrc3]
        rfl)
      htgt1
      (fun r0 hr0 => h0 r0 (by rwa [hagree 0 hpos] at hr0))
      (by simp only [List.length_append, List.length_singleton]; omega)
      hall1
    have hlen2 : st.heap.length <
        (exec (nestProg n (.regMount cb))
          ⟨st.heap ++ [newScopeRec st.current],
            some st.heap.length⟩).1.heap.length := by
      have := exec_heap_len (nestProg n (.regMount cb))
        ⟨st.heap ++ [newScopeRec st.current], some st.heap.length⟩
      simp only [List.length_append, List.length_singleton] at this
      omega
    obtain ⟨rn, hrn⟩ : ∃ rn,
        (exec (nestProg n (.regMount cb))
          ⟨st.heap ++ [newScopeRec st.current],
            some st.heap.length⟩).1.heap[st.heap.length]? = some rn :=
      ⟨_, List.getElem?_eq_getElem hlen2⟩
    have hsid0 : st.heap.length ≠ 0 := by omega
    simp only [nestProg]
    rw [exec_newRun (nestProg n (.regMount cb)) st rn hrn]
    dsimp only
    refine ⟨?_, fun sid hsid => ?_, ?_⟩
    · rw [mountsOf_set_ne _ _ _ _ hsid0, iha, mountsOf_append _ _ _ hpos]
    · by_cases hse : sid = st.heap.length
      · subst hse
        rw [mountsOf_set_self _ _ _ hlen2]
        simp
      · rw [mountsOf_set_ne _ _ _ _ (fun hh => hse hh.symm)]
        exact ihb sid hsid
    · simp only [List.mem_append]
      rintro ((hm | hm) | hm)
      · exact ihc hm
      · rw [List.mem_map] at hm
        obtain ⟨x, hx, hfx⟩ := hm
        have hxcb : x = cb := by injection hfx
        have hno : cb ∉ rn.mounts := by
          have h5 := ihb st.heap.length hsid0
          rwa [mountsOf_some _ _ _ hrn] at h5
        exact hno (hxcb ▸ hx)
      · simp at hm

/-- C7: `onMount` delegation.  Structurally, registering a mount callback on a
scope attaches it to the scope reached by climbing parents while they exist
and are unmounted (`scopeOnMount` equals attaching at `onMountTarget`, which
stays put when the parent is missing or mounted and steps to the parent when
it is unmounted), with `attachMount` appending to exactly that scope's
`mounts`.  Temporally, for every nesting depth `n` and arbitrary surrounding
programs `p1`, `p2` not mentioning the callback, a callback registered via
`onMount` inside `n` nested child scopes of a root scope fires exactly once,
namely in the mount-flush block of the outermost still-unmounted ancestor's
`run()` (the trailing `fires` block before its `runDone`), and in particular
not when any nested scope's own `run()` completes (not inside the body
trace `tb`). -/
theorem scope_onMount_delegation :
    (∀ (fuel : Nat) (h : List ScopeRec) (s cb : Nat),
      scopeOnMount fuel h s cb = attachMount h (onMountTarget fuel h s) cb) ∧
    (∀ (h : List ScopeRec) (s fuel : Nat) (r : ScopeRec),
      h[s]? = some r → r.parent = none →
      onMountTarget (fuel + 1) h s = s) ∧
    (∀ (h : List ScopeRec) (s fuel : Nat) (r : ScopeRec) (p : Nat)
      (pr : ScopeRec), h[s]? = some r → r.parent = some p →
      h[p]? = some pr → pr.mounted = true →
      onMountTarget (fuel + 1) h s = s) ∧
    (∀ (h : List ScopeRec) (s fuel : Nat) (r : ScopeRec) (p : Nat)
      (pr : ScopeRec), h[s]? = some r → r.parent = some p →
      h[p]? = some pr → pr.mounted = false →
      onMountTarget (fuel + 1) h s = onMountTarget fuel h p) ∧
    (∀ (h : List ScopeRec) (t : Nat) (r : ScopeRec) (cb : Nat),
      h[t]? = some r →
      attachMount h t cb = h.set t { r with mounts := addSet cb r.mounts }) ∧
    ∀ (n : Nat) (p1 p2 : SProg) (cb : Nat),
      cb ∉ progCbs p1 → cb ∉ progCbs p2 →
      ∃ (tb : List SEv) (fires : List Nat),
        (exec (.newRun (.seq p1 (.seq (nestProg n (.regMount cb)) p2)))
          ⟨[], none⟩).2 = tb ++ List.map SEv.fire fires ++ [SEv.runDone 0] ∧
        SEv.fire cb ∉ tb ∧ cb ∈ fires ∧
        ((exec (.newRun (.seq p1 (.seq (nestProg n (.regMount cb)) p2)))
          ⟨[], none⟩).2).count (SEv.fire cb) = 1 := by
  refine ⟨scopeOnMount_eq_attach, onMountTarget_parent_none,
    onMountTarget_parent_mounted, onMountTarget_step, attachMount_eq, ?_⟩
  intro n p1 p2 cb hcb1 hcb2
  have hinj : Function.Injective SEv.fire := fun a b hab => by injection hab
  set body := SProg.seq p1 (SProg.seq (nestProg n (.regMount cb)) p2)
    with hbody
  have hwf1 : stWfB ⟨[newScopeRec none], some 0⟩ = true := by decide
  have hm1 : ∀ sid, mountsOf [newScopeRec none] sid = [] := by
    intro sid
    cases sid with
    | zero => rfl
    | succ k => exact mountsOf_out _ _ (by simp)
  -- effect of p1
  obtain ⟨c1, f1⟩ := exec_cb_free cb p1 ⟨[newScopeRec none], some 0⟩ hcb1
  have hwf2 := exec_wf p1 ⟨[newScopeRec none], some 0⟩ hwf1
  have hcur2 : (exec p1 ⟨[newScopeRec none], some 0⟩).1.current = some 0 :=
    exec_current p1 ⟨[newScopeRec none], some 0⟩
  obtain ⟨e1, hfr⟩ := exec_frame p1 ⟨[newScopeRec none], some 0⟩ 0
    (newScopeRec none) rfl
  have hpos2 : 0 < (exec p1 ⟨[newScopeRec none], some 0⟩).1.heap.length :=
    lt_of_lt_of_le (by simp) (exec_heap_len p1 ⟨[newScopeRec none], some 0⟩)
  have hall2 : ∀ sid,
      cb ∉ mountsOf (exec p1 ⟨[newScopeRec none], some 0⟩).1.heap sid := by
    intro sid
    apply List.count_eq_zero.1
    rw [c1 sid]
    dsimp only
    rw [hm1 sid]
    rfl
  -- the nesting tower delegates the callback to scope 0
  obtain ⟨na, nb, nc⟩ := exec_nest cb n
    (exec p1 ⟨[newScopeRec none], some 0⟩).1 0 hwf2 hcur2
    (fun rc hrc => by
      rw [hfr] at hrc
      injection hrc with hrc2
      rw [← hrc2]
      rfl)
    (onMountTarget_parent_none _ 0 0 _ hfr rfl)
    (fun r0 hr0 => by
      rw [hfr] at hr0
      injection hr0 with hr02
      rw [← hr02]
      exact ⟨rfl, rfl⟩)
    hpos2 hall2
  -- effect of p2
  obtain ⟨c3, f3⟩ := exec_cb_free cb p2
    (exec (nestProg n (.regMount cb))
      (exec p1 ⟨[newScopeRec none], some 0⟩).1).1 hcb2
  have hcnt0 : (mountsOf (exec p2
      (exec (nestProg n (.regMount cb))
        (exec p1 ⟨[newScopeRec none], some 0⟩).1).1).1.heap 0).count cb = 1 := by
    rw [c3 0, na, List.count_append]
    have hz : (mountsOf (exec p1 ⟨[newScopeRec none], some 0⟩).1.heap 0).count
        cb = 0 := List.count_eq_zero.2 (hall2 0)
    simp [hz]
  -- assemble the run of the outermost scope
  have hposB : 0 < (exec body ⟨[newScopeRec none], some 0⟩).1.heap.length := by
    have h4 := exec_heap_len body ⟨[newScopeRec none], some 0⟩
    simp only [List.length_singleton] at h4
    omega
  obtain ⟨r0f, hr0f⟩ : ∃ r0f,
      (exec body ⟨[newScopeRec none], some 0⟩).1.heap[0]? = some r0f :=
    ⟨_, List.getElem?_eq_getElem hposB⟩
  have hBsplit : (exec body ⟨[newScopeRec none], some 0⟩).1 =
      (exec p2 (exec (nestProg n (.regMount cb))
        (exec p1 ⟨[newScopeRec none], some 0⟩).1).1).1 ∧
      (exec body ⟨[newScopeRec none], some 0⟩).2 =
      (exec p1 ⟨[newScopeRec none], some 0⟩).2 ++
        ((exec (nestProg n (.regMount cb))
          (exec p1 ⟨[newScopeRec none], some 0⟩).1).2 ++
         (exec p2 (exec (nestProg n (.regMount cb))
           (exec p1 ⟨[newScopeRec none], some 0⟩).1).1).2) := ⟨rfl, rfl⟩
  have hcntf : r0f.mounts.count cb = 1 := by
    have h5 := hcnt0
    rw [← hBsplit.1] at h5
    rwa [mountsOf_some _ _ _ hr0f] at h5
  have hcbf : cb ∈ r0f.mounts := by
    have : 0 < r0f.mounts.count cb := by omega
    exact List.count_pos_iff.1 this
  have hnotb : SEv.fire cb ∉ (exec body ⟨[newScopeRec none], some 0⟩).2 := by
    rw [hBsplit.2]
    simp only [List.mem_append]
    rintro (hm | hm | hm)
    · exact f1 hm
    · exact nc hm
    · exact f3 hm
  have hrw := exec_newRun body ⟨[], none⟩ r0f hr0f
  rw [hrw]
  dsimp only
  simp only [List.nil_append, List.length_nil]
  refine ⟨(exec body ⟨[newScopeRec none], some 0⟩).2, r0f.mounts, ?_, hnotb,
    hcbf, ?_⟩
  · rfl
  · rw [List.count_append, List.count_append]
    rw [List.count_eq_zero.2 hnotb,
      List.count_map_of_injective _ SEv.fire hinj, hcntf]
    rfl

theorem scope_onMount_delegation_witness :
    (5 ∉ progCbs SProg.skip) ∧
    ∃ (tb : List SEv) (fires : List Nat),
      (exec (.newRun (.seq .skip (.seq (nestProg 1 (.regMount 5)) .skip)))
        ⟨[], none⟩).2 = tb ++ List.map SEv.fire fires ++ [SEv.runDone 0] ∧
      SEv.fire 5 ∉ tb ∧ 5 ∈ fires ∧
      ((exec (.newRun (.seq .skip (.seq (nestProg 1 (.regMount 5)) .skip)))
        ⟨[], none⟩).2).count (SEv.fire 5) = 1 :=
  ⟨by decide,
    scope_onMount_delegation.2.2.2.2.2 1 .skip .skip 5 (by decide) (by decide)⟩

/-!
## The optional-value reconciler (`With`, With.ts)

```
function callback(v: T) {
    for (const child of fragment.children) {
        fragment.removeChild(child)
        if (typeof cleanup === "function") {
            cleanup(child)
        } else if (cleanup !== null) {
            env.defaultCleanup(child)
        }
        if (scope) scope.dispose()
    }
    scope = new Scope(currentScope)
    const ch = scope.run(() => mkChild(v))
    if (ch !== "" && ch !== false && ch !== null && ch !== undefined) {
        fragment.addChild(ch)
    }
}
```

Rendered outputs and scopes are numbered from a fresh counter `next`; the
render result of a pass is abstracted by `renderEmpty`: whether `mkChild(v)`
returned one of the empty values.  `cleanup` is a three-way mode: a supplied
function, explicitly `null` (disabled), or absent (environment default).
`Fragment.prototype.removeChild` does `findIndex` then `splice(index, 1)`;
for an absent child `findIndex` is `-1` and `splice(-1, 1)` removes the last
element, which `fragRemove` models faithfully. -/

inductive CleanupMode where
  | custom
  | disabled
  | envDefault
deriving DecidableEq

inductive WEv where
  | removeChild (c : Nat)
  | teardown (c : Nat)
  | disposeScope (sid : Nat)
  | newScope (sid parent : Nat)
  | render
  | addChild (c : Nat)
deriving DecidableEq

structure WithState where
  frag : List Nat
  scope : Option Nat
  next : Nat
deriving DecidableEq

def teardownEvs (cm : CleanupMode) (c : Nat) : List WEv :=
  match cm with
  | .custom => [.teardown c]
  | .disabled => []
  | .envDefault => [.teardown c]

def fragRemove (c : Nat) (f : List Nat) : List Nat :=
  if c ∈ f then f.erase c else f.dropLast

/-- The unmount loop of `With.callback`: iterate over a copy of the mounted
children; per child remove it, run the configured teardown, and dispose the
current child scope if one exists. -/
def withLoop (cm : CleanupMode) (scope : Option Nat) :
    List Nat → List Nat → List Nat × List WEv
  | [], frag => (frag, [])
  | c :: cs, frag =>
    let rest := withLoop cm scope cs (fragRemove c frag)
    (rest.1,
      WEv.removeChild c ::
        (teardownEvs cm c ++
          (match scope with
           | some sid => [WEv.disposeScope sid]
           | none => []) ++ rest.2))

/-- One pass of the optional-value reconciler. -/
def withCallback (renderEmpty : Bool) (parent : Nat) (cm : CleanupMode)
    (s : WithState) : WithState × List WEv :=
  let loop := withLoop cm s.scope s.frag s.frag
  if renderEmpty then
    (⟨loop.1, some s.next, s.next + 2⟩,
      loop.2 ++ [WEv.newScope s.next parent, WEv.render])
  else
    (⟨loop.1 ++ [s.next + 1], some s.next, s.next + 2⟩,
      loop.2 ++ [WEv.newScope s.next parent, WEv.render,
        WEv.addChild (s.next + 1)])

lemma fragRemove_subset (c : Nat) (f : List Nat) : fragRemove c f ⊆ f := by
  unfold fragRemove
  split
  · intro x hx
    exact List.mem_of_mem_erase hx
  · intro x hx
    exact List.dropLast_subset f hx

lemma withLoop_subset (cm : CleanupMode) (scope : Option Nat) :
    ∀ (cs f : List Nat), (withLoop cm scope cs f).1 ⊆ f := by
  intro cs
  induction cs with
  | nil => intro f x hx; exact hx
  | cons c cs ih =>
    intro f x hx
    exact fragRemove_subset c f (ih (fragRemove c f) hx)

/-- C4 counterexample: a pass whose render produced no output leaves the
fresh child scope (id 0) current but unmounted-into-nothing; the next change
pass disposes no scope at all (the disposal sits inside the loop over
mounted children, which is empty) and simply overwrites `scope` with a new
one, so the claim that every change disposes the current child scope is
false. -/
theorem with_reconciler_cex :
    (withCallback true 9 .envDefault ⟨[], none, 0⟩).1 = ⟨[], some 0, 2⟩ ∧
    ((withCallback false 9 .envDefault ⟨[], some 0, 2⟩).2).count
      (WEv.disposeScope 0) = 0 ∧
    (∀ sid, WEv.disposeScope sid ∉
      (withCallback false 9 .envDefault ⟨[], some 0, 2⟩).2) ∧
    (withCallback false 9 .envDefault ⟨[], some 0, 2⟩).1.scope = some 2 := by
  have hev : (withCallback false 9 .envDefault ⟨[], some 0, 2⟩).2 =
      [WEv.newScope 2 9, WEv.render, WEv.addChild 3] := by decide
  refine ⟨by decide, by decide, ?_, by decide⟩
  intro sid
  rw [hev]
  simp

/-- C4 amended: on every change of the source (and on the initial call), the
currently mounted output, if any, is unmounted, cleaned up with the
configured teardown (the environment default teardown when no `cleanup` was
supplied), and the current child scope is disposed; when no output is
mounted, nothing is unmounted and no scope is disposed (a previous child
scope, if any, leaks); in all cases a fresh child scope is created and made
current, the render function is invoked inside it, and the result is mounted
if and only if it is not empty. -/
theorem with_reconciler_amended (renderEmpty : Bool) (parent : Nat)
    (cm : CleanupMode) (s : WithState)
    (hb : ∀ c ∈ s.frag, c < s.next) :
    (∀ c sid, s.frag = [c] → s.scope = some sid →
      (withCallback renderEmpty parent cm s).2 =
        [WEv.removeChild c] ++ teardownEvs cm c ++ [WEv.disposeScope sid] ++
        [WEv.newScope s.next parent, WEv.render] ++
        (if renderEmpty then [] else [WEv.addChild (s.next + 1)])) ∧
    (s.frag = [] →
      (withCallback renderEmpty parent cm s).2 =
        [WEv.newScope s.next parent, WEv.render] ++
        (if renderEmpty then [] else [WEv.addChild (s.next + 1)])) ∧
    ((withCallback renderEmpty parent cm s).1.scope = some s.next ∧
      WEv.render ∈ (withCallback renderEmpty parent cm s).2 ∧
      ((s.next + 1) ∈ (withCallback renderEmpty parent cm s).1.frag ↔
        renderEmpty = false)) := by
  refine ⟨?_, ?_, ?_, ?_, ?_⟩
  · intro c sid hfrag hscope
    cases renderEmpty <;>
      simp [withCallback, withLoop, hfrag, hscope, fragRemove]
  · intro hfrag
    cases renderEmpty <;> simp [withCallback, withLoop, hfrag]
  · cases renderEmpty <;> simp [withCallback]
  · cases renderEmpty <;> simp [withCallback, withLoop]
  · have hnm : (s.next + 1) ∉ (withLoop cm s.scope s.frag s.frag).1 := by
      intro hmem
      have := hb _ (withLoop_subset cm s.scope s.frag s.frag hmem)
      omega
    cases renderEmpty with
    | true =>
      simp only [withCallback, if_true]
      simpa using hnm
    | false =>
      simp [withCallback]

theorem with_reconciler_amended_witness :
    (∀ c ∈ ([4] : List Nat), c < 7) ∧
    ((∀ c sid, ([4] : List Nat) = [c] →
        (some 3 : Option Nat) = some sid →
      (withCallback false 9 .envDefault ⟨[4], some 3, 7⟩).2 =
        [WEv.removeChild c] ++ teardownEvs .envDefault c ++
        [WEv.disposeScope sid] ++ [WEv.newScope 7 9, WEv.render] ++
        (if false then [] else [WEv.addChild 8])) ∧
    (([4] : List Nat) = [] →
      (withCallback false 9 .envDefault ⟨[4], some 3, 7⟩).2 =
        [WEv.newScope 7 9, WEv.render] ++
        (if false then [] else [WEv.addChild 8])) ∧
    ((withCallback false 9 .envDefault ⟨[4], some 3, 7⟩).1.scope = some 7 ∧
      WEv.render ∈ (withCallback false 9 .envDefault ⟨[4], some 3, 7⟩).2 ∧
      ((8 : Nat) ∈ (withCallback false 9 .envDefault ⟨[4], some 3, 7⟩).1.frag ↔
        false = false))) :=
  ⟨by decide, with_reconciler_amended false 9 .envDefault ⟨[4], some 3, 7⟩
    (by decide)⟩

/-!
## The collection reconciler (`For`, For.ts)

```
function callback(itareable: Iterable<Item>) {
    const items = [...itareable]
    const ids = items.map(id)
    const idSet = new Set(ids)

    // cleanup children missing from arr
    for (const [key, value] of map.entries()) {
        // there is no generic way to insert child at index
        // so we sort by removing every child and reappending in order
        fragment.removeChild(value.child)

        if (!idSet.has(key)) {
            remove(value)
            map.delete(key)
        }
    }

    // update index and add new items
    items.map((item, i) => {
        const key = ids[i]
        if (map.has(key)) {
            const { index: [, setIndex], child } = map.get(key)!
            setIndex(i)
            if (fragment.hasChild(child)) {
                console.warn(`duplicate keys found: ` + key)
            } else {
                fragment.addChild(child)
            }
        } else {
            const [index, setIndex] = createState(i)
            const scope = new Scope(currentScope)
            const child = scope.run(() => mkChild(item, index))
            map.set(key, { item, child, index: [index, setIndex], scope })
            fragment.addChild(child)
        }
    })
}
```

with `remove(value)` running the configured teardown (`cleanup`, or the
environment default unless `cleanup === null`) and then `value.scope.dispose()`.

A tracking entry stores the item, the rendered output (`child`), the current
value of the per-entry index signal (`idx`) and the owned child scope
(`sid`).  The JS `Map` keeps insertion order: it is an association list
where setting an existing key updates in place and setting a new key
appends.  Fresh scope and output identities are drawn from the counter
`next`: a new entry's scope gets id `n` and its rendered output id `n + 1`
(abstracting that `mkChild` creates a fresh output object per render call). -/

structure ForEntry (Item : Type) where
  item : Item
  child : Nat
  idx : Nat
  sid : Nat
deriving DecidableEq

inductive FEv (Key : Type) where
  | removeChild (c : Nat)
  | teardown (k : Key) (c : Nat)
  | disposeScope (sid : Nat)
  | setIndex (k : Key) (i : Nat)
  | warnDup (k : Key)
  | addChild (c : Nat)
  | newScope (sid parent : Nat)
  | render (k : Key) (sid c i : Nat)
deriving DecidableEq

def lookupE {Item Key : Type} [DecidableEq Key] (k : Key) :
    List (Key × ForEntry Item) → Option (ForEntry Item)
  | [] => none
  | (k1, e) :: rest => if k1 = k then some e else lookupE k rest

def setIdxE {Item Key : Type} [DecidableEq Key] (k : Key) (i : Nat) :
    List (Key × ForEntry Item) → List (Key × ForEntry Item)
  | [] => []
  | (k1, e) :: rest =>
    if k1 = k then (k1, { e with idx := i }) :: rest
    else (k1, e) :: setIdxE k i rest

def keysOf {Item Key : Type} (m : List (Key × ForEntry Item)) : List Key :=
  m.map Prod.fst

def childrenOf {Item Key : Type} (m : List (Key × ForEntry Item)) :
    List Nat :=
  m.map (fun p => p.2.child)

def sidsOf {Item Key : Type} (m : List (Key × ForEntry Item)) : List Nat :=
  m.map (fun p => p.2.sid)

/-- The rendered output tracked for a key (0 when untracked; used only where
the key is known to be tracked). -/
def childAt {Item Key : Type} [DecidableEq Key] (k : Key)
    (m : List (Key × ForEntry Item)) : Nat :=
  (lookupE k m).elim 0 (fun e => e.child)

/-- The cleanup-missing-children loop of `For.callback`: every tracked child
is removed from the fragment; entries whose key is absent from the new ids
additionally get their teardown and scope disposal and are dropped. -/
def fTeardown {Key : Type} (cm : CleanupMode) (k : Key) (c : Nat) :
    List (FEv Key) :=
  match cm with
  | .disabled => []
  | .custom => [FEv.teardown k c]
  | .envDefault => [FEv.teardown k c]

def phase1 {Item Key : Type} [DecidableEq Key] (cm : CleanupMode)
    (ids : List Key) :
    List (Key × ForEntry Item) → List Nat →
    List (Key × ForEntry Item) × List Nat × List (FEv Key)
  | [], frag => ([], frag, [])
  | (k, e) :: rest, frag =>
    let r := phase1 cm ids rest (fragRemove e.child frag)
    if k ∈ ids then
      ((k, e) :: r.1, r.2.1, FEv.removeChild e.child :: r.2.2)
    else
      (r.1, r.2.1,
        FEv.removeChild e.child ::
          (fTeardown cm k e.child ++ (FEv.disposeScope e.sid :: r.2.2)))

/-- The update-and-add loop of `For.callback`, walking the new item list with
its position `i`: a tracked key gets its index signal set to `i` and its
existing output re-appended (with a duplicate-key warning if it is already
present); a new key gets a fresh child scope (id `n`) parented to the
reconciler's scope, one render call with a fresh index signal, a new map
entry, and its output appended. -/
def phase2 {Item Key : Type} [DecidableEq Key] (idf : Item → Key)
    (parent : Nat) :
    List Item → Nat → List (Key × ForEntry Item) → List Nat → Nat →
    List (Key × ForEntry Item) × List Nat × Nat × List (FEv Key)
  | [], _, m, f, n => (m, f, n, [])
  | it :: rest, i, m, f, n =>
    let k := idf it
    match lookupE k m with
    | some e =>
      let m1 := setIdxE k i m
      if e.child ∈ f then
        let r := phase2 idf parent rest (i + 1) m1 f n
        (r.1, r.2.1, r.2.2.1, FEv.setIndex k i :: FEv.warnDup k :: r.2.2.2)
      else
        let r := phase2 idf parent rest (i + 1) m1 (f ++ [e.child]) n
        (r.1, r.2.1, r.2.2.1,
          FEv.setIndex k i :: FEv.addChild e.child :: r.2.2.2)
    | none =>
      let e : ForEntry Item := ⟨it, n + 1, i, n⟩
      let r := phase2 idf parent rest (i + 1) (m ++ [(k, e)]) (f ++ [n + 1])
        (n + 2)
      (r.1, r.2.1, r.2.2.1,
        FEv.newScope n parent :: FEv.render k n (n + 1) i ::
          FEv.addChild (n + 1) :: r.2.2.2)

structure ForState (Item Key : Type) where
  map : List (Key × ForEntry Item)
  frag : List Nat
  next : Nat

/-- One pass of the collection reconciler (run at construction and on every
source-change notification). -/
def forCallback {Item Key : Type} [DecidableEq Key] (idf : Item → Key)
    (parent : Nat) (cm : CleanupMode) (items : List Item)
    (s : ForState Item Key) : ForState Item Key × List (FEv Key) :=
  let ids := items.map idf
  let p1 := phase1 cm ids s.map s.frag
  let p2 := phase2 idf parent items 0 p1.1 p1.2.1 s.next
  (⟨p2.1, p2.2.1, p2.2.2.1⟩, p1.2.2 ++ p2.2.2.2)

/-- The state invariant of a reconciler: distinct keys, distinct rendered
outputs, distinct owned scopes, the fragment holds exactly the tracked
outputs (in some order), and all identities are below the freshness
counter.  It holds for the initial empty state and is maintained by every
pass. -/
def ForInv {Item Key : Type} (s : ForState Item Key) : Prop :=
  (keysOf s.map).Nodup ∧ (childrenOf s.map).Nodup ∧ (sidsOf s.map).Nodup ∧
  s.frag.Perm (childrenOf s.map) ∧
  ∀ p ∈ s.map, p.2.child < s.next ∧ p.2.sid < s.next

def isTd {Key : Type} [DecidableEq Key] (k : Key) : FEv Key → Bool
  | .teardown k1 _ => decide (k1 = k)
  | _ => false

def isDs {Key : Type} (sid : Nat) : FEv Key → Bool
  | .disposeScope s1 => decide (s1 = sid)
  | _ => false

def isRender {Key : Type} [DecidableEq Key] (k : Key) : FEv Key → Bool
  | .render k1 _ _ _ => decide (k1 = k)
  | _ => false

def isSetIdx {Key : Type} [DecidableEq Key] (k : Key) : FEv Key → Bool
  | .setIndex k1 _ => decide (k1 = k)
  | _ => false

def isWarn {Key : Type} [DecidableEq Key] (k : Key) : FEv Key → Bool
  | .warnDup k1 => decide (k1 = k)
  | _ => false

section ForLemmas

variable {Item Key : Type} [DecidableEq Key]

lemma lookupE_none_iff (k : Key) :
    ∀ m : List (Key × ForEntry Item), lookupE k m = none ↔ k ∉ keysOf m := by
  intro m
  induction m with
  | nil => simp [lookupE, keysOf]
  | cons p rest ih =>
    obtain ⟨k1, e⟩ := p
    by_cases hk : k1 = k
    · subst hk
      simp [lookupE, keysOf]
    · simp [lookupE, hk, keysOf, ih]
      intro h
      exact fun hh => hk hh.symm

lemma lookupE_mem_child (k : Key) :
    ∀ (m : List (Key × ForEntry Item)) (e : ForEntry Item),
      lookupE k m = some e → e.child ∈ childrenOf m := by
  intro m
  induction m with
  | nil => intro e h; simp [lookupE] at h
  | cons p rest ih =>
    obtain ⟨k1, e1⟩ := p
    intro e h
    by_cases hk : k1 = k
    · subst hk
      simp only [lookupE, if_pos rfl] at h
      injection h with h2
      subst h2
      simp [childrenOf]
    · simp only [lookupE, hk, if_false] at h
      simp only [childrenOf, List.map_cons, List.mem_cons]
      exact Or.inr (ih e h)

lemma lookupE_children_ne (k k' : Key) :
    ∀ (m : List (Key × ForEntry Item)) (e e' : ForEntry Item),
      (childrenOf m).Nodup → k ≠ k' →
      lookupE k m = some e → lookupE k' m = some e' →
      e.child ≠ e'.child := by
  intro m
  induction m with
  | nil => intro e e' _ _ h; simp [lookupE] at h
  | cons p rest ih =>
    obtain ⟨k1, e1⟩ := p
    intro e e' hnd hkk h h'
    have hnd2 : (childrenOf rest).Nodup := by
      simpa [childrenOf] using hnd.of_cons
    have hnm : e1.child ∉ childrenOf rest := by
      simp only [childrenOf, List.map_cons, List.nodup_cons] at hnd
      exact hnd.1
    by_cases hk : k1 = k
    · subst hk
      simp only [lookupE, if_pos rfl] at h
      injection h with h2
      subst h2
      have hk' : ¬ k1 = k' := hkk
      simp only [lookupE, hk', if_false] at h'
      intro hcc
      exact hnm (hcc ▸ lookupE_mem_child k' rest e' h')
    · by_cases hk' : k1 = k'
      · subst hk'
        simp only [lookupE, if_pos rfl] at h'
        injection h' with h2
        subst h2
        simp only [lookupE, hk, if_false] at h
        intro hcc
        exact hnm (hcc ▸ lookupE_mem_child k rest e h)
      · simp only [lookupE, hk, hk', if_false] at h h'
        exact ih e e' hnd2 hkk h h'

lemma lookupE_setIdx_self (k : Key) (i : Nat) :
    ∀ m : List (Key × ForEntry Item),
      lookupE k (setIdxE k i m) =
        (lookupE k m).map (fun e => { e with idx := i }) := by
  intro m
  induction m with
  | nil => simp [lookupE, setIdxE]
  | cons p rest ih =>
    obtain ⟨k1, e1⟩ := p
    by_cases hk : k1 = k
    · subst hk
      simp [lookupE, setIdxE]
    · simp [lookupE, setIdxE, hk, ih]

lemma lookupE_setIdx_ne (k k' : Key) (i : Nat) (hne : k' ≠ k) :
    ∀ m : List (Key × ForEntry Item),
      lookupE k' (setIdxE k i m) = lookupE k' m := by
  intro m
  induction m with
  | nil => simp [setIdxE]
  | cons p rest ih =>
    obtain ⟨k1, e1⟩ := p
    by_cases hk : k1 = k
    · subst hk
      have : ¬ k1 = k' := fun hh => hne hh.symm
      simp [lookupE, setIdxE, this]
    · by_cases hk' : k1 = k'
      · subst hk'
        simp [lookupE, setIdxE, hk]
      · simp [lookupE, setIdxE, hk, hk', ih]

lemma keysOf_setIdx (k : Key) (i : Nat) :
    ∀ m : List (Key × ForEntry Item), keysOf (setIdxE k i m) = keysOf m := by
  intro m
  induction m with
  | nil => rfl
  | cons p rest ih =>
    obtain ⟨k1, e1⟩ := p
    by_cases hk : k1 = k
    · subst hk
      simp [setIdxE, keysOf]
    · simp [setIdxE, keysOf, hk]
      simpa [keysOf] using ih

lemma childrenOf_setIdx (k : Key) (i : Nat) :
    ∀ m : List (Key × ForEntry Item),
      childrenOf (setIdxE k i m) = childrenOf m := by
  intro m
  induction m with
  | nil => rfl
  | cons p rest ih =>
    obtain ⟨k1, e1⟩ := p
    by_cases hk : k1 = k
    · subst hk
      simp [setIdxE, childrenOf]
    · simp [setIdxE, childrenOf, hk]
      simpa [childrenOf] using ih

lemma lookupE_append_sing (k : Key) (x : Key × ForEntry Item) :
    ∀ m : List (Key × ForEntry Item),
      lookupE k (m ++ [x]) =
        match lookupE k m with
        | some e => some e
        | none => if x.1 = k then some x.2 else none := by
  intro m
  induction m with
  | nil => simp [lookupE]
  | cons p rest ih =>
    obtain ⟨k1, e1⟩ := p
    by_cases hk : k1 = k
    · subst hk
      simp [lookupE]
    · simp [lookupE, hk, ih]

lemma keysOf_append_sing (m : List (Key × ForEntry Item))
    (x : Key × ForEntry Item) : keysOf (m ++ [x]) = keysOf m ++ [x.1] := by
  simp [keysOf]

end ForLemmas


section ForPhase1

variable {Item Key : Type} [DecidableEq Key]

lemma phase1_cons (cm : CleanupMode) (ids : List Key) (k : Key)
    (e : ForEntry Item) (rest : List (Key × ForEntry Item))
    (frag : List Nat) :
    phase1 cm ids ((k, e) :: rest) frag =
      if k ∈ ids then
        ((k, e) :: (phase1 cm ids rest (fragRemove e.child frag)).1,
         (phase1 cm ids rest (fragRemove e.child frag)).2.1,
         FEv.removeChild e.child ::
           (phase1 cm ids rest (fragRemove e.child frag)).2.2)
      else
        ((phase1 cm ids rest (fragRemove e.child frag)).1,
         (phase1 cm ids rest (fragRemove e.child frag)).2.1,
         FEv.removeChild e.child ::
           (fTeardown cm k e.child ++
             (FEv.disposeScope e.sid ::
               (phase1 cm ids rest (fragRemove e.child frag)).2.2))) := rfl

lemma fTeardown_countP_td (cm : CleanupMode) (k1 k : Key) (c : Nat) :
    (fTeardown cm k1 c).countP (isTd k) =
      if cm ≠ .disabled ∧ k1 = k then 1 else 0 := by
  cases cm <;> by_cases hk : k1 = k <;> simp [fTeardown, isTd, hk]

lemma fTeardown_countP_ds (cm : CleanupMode) (k1 : Key) (c sid : Nat) :
    (fTeardown cm k1 c).countP (isDs sid) = 0 := by
  cases cm <;> simp [fTeardown, isDs]

lemma fTeardown_countP_render (cm : CleanupMode) (k1 k : Key) (c : Nat) :
    (fTeardown cm k1 c).countP (isRender k) = 0 := by
  cases cm <;> simp [fTeardown, isRender]

lemma fTeardown_countP_setIdx (cm : CleanupMode) (k1 k : Key) (c : Nat) :
    (fTeardown cm k1 c).countP (isSetIdx k) = 0 := by
  cases cm <;> simp [fTeardown, isSetIdx]

lemma fTeardown_countP_warn (cm : CleanupMode) (k1 k : Key) (c : Nat) :
    (fTeardown cm k1 c).countP (isWarn k) = 0 := by
  cases cm <;> simp [fTeardown, isWarn]

lemma phase1_map (cm : CleanupMode) (ids : List Key) :
    ∀ (m : List (Key × ForEntry Item)) (frag : List Nat),
      (phase1 cm ids m frag).1 =
        m.filter (fun p => decide (p.1 ∈ ids)) := by
  intro m
  induction m with
  | nil => intro frag; rfl
  | cons p rest ih =>
    obtain ⟨k, e⟩ := p
    intro frag
    rw [phase1_cons]
    by_cases hk : k ∈ ids
    · simp [hk, ih, List.filter_cons]
    · simp [hk, ih, List.filter_cons]

lemma phase1_frag (cm : CleanupMode) (ids : List Key) :
    ∀ (m : List (Key × ForEntry Item)) (frag : List Nat),
      frag.Perm (childrenOf m) → (childrenOf m).Nodup →
      (phase1 cm ids m frag).2.1 = [] := by
  intro m
  induction m with
  | nil =>
    intro frag hperm _
    have hnil : frag = [] := List.Perm.eq_nil hperm
    simp [phase1, hnil]
  | cons p rest ih =>
    obtain ⟨k, e⟩ := p
    intro frag hperm hnd
    have hmem : e.child ∈ frag := hperm.mem_iff.2 (by simp [childrenOf])
    have hrm : fragRemove e.child frag = frag.erase e.child := by
      simp [fragRemove, hmem]
    have hperm2 : (frag.erase e.child).Perm (childrenOf rest) := by
      have h2 := hperm.erase e.child
      simpa [childrenOf, List.erase_cons_head] using h2
    have hnd2 : (childrenOf rest).Nodup := by
      simpa [childrenOf] using hnd.of_cons
    rw [phase1_cons, hrm]
    split <;> exact ih _ hperm2 hnd2

lemma phase1_no_p2ev (cm : CleanupMode) (ids : List Key) :
    ∀ (m : List (Key × ForEntry Item)) (frag : List Nat) (k : Key),
      (phase1 cm ids m frag).2.2.countP (isRender k) = 0 ∧
      (phase1 cm ids m frag).2.2.countP (isSetIdx k) = 0 ∧
      (phase1 cm ids m frag).2.2.countP (isWarn k) = 0 := by
  intro m
  induction m with
  | nil => intro frag k; exact ⟨rfl, rfl, rfl⟩
  | cons p rest ih =>
    obtain ⟨k1, e⟩ := p
    intro frag k
    obtain ⟨h1, h2, h3⟩ := ih (fragRemove e.child frag) k
    rw [phase1_cons]
    by_cases hk : k1 ∈ ids
    · simp only [hk, if_true, List.countP_cons]
      refine ⟨?_, ?_, ?_⟩ <;> simp [isRender, isSetIdx, isWarn, h1, h2, h3]
    · simp only [hk, if_false, List.countP_cons, List.countP_append,
        fTeardown_countP_render, fTeardown_countP_setIdx,
        fTeardown_countP_warn]
      refine ⟨?_, ?_, ?_⟩ <;>
        simp [isRender, isSetIdx, isWarn, h1, h2, h3]

lemma lookupE_mem_sid (k : Key) :
    ∀ (m : List (Key × ForEntry Item)) (e : ForEntry Item),
      lookupE k m = some e → e.sid ∈ sidsOf m := by
  intro m
  induction m with
  | nil => intro e h; simp [lookupE] at h
  | cons p rest ih =>
    obtain ⟨k1, e1⟩ := p
    intro e h
    by_cases hk : k1 = k
    · subst hk
      simp only [lookupE, if_pos rfl] at h
      injection h with h2
      subst h2
      simp [sidsOf]
    · simp only [lookupE, hk, if_false] at h
      simp only [sidsOf, List.map_cons, List.mem_cons]
      exact Or.inr (ih e h)

lemma phase1_ds_notin (cm : CleanupMode) (ids : List Key) :
    ∀ (m : List (Key × ForEntry Item)) (frag : List Nat) (sid : Nat),
      sid ∉ sidsOf m →
      (phase1 cm ids m frag).2.2.countP (isDs sid) = 0 := by
  intro m
  induction m with
  | nil => intro frag sid _; rfl
  | cons p rest ih =>
    obtain ⟨k1, e⟩ := p
    intro frag sid hsid
    have hne : ¬ e.sid = sid := by
      intro hh
      exact hsid (by simp [sidsOf, hh])
    have hrest : sid ∉ sidsOf rest := by
      intro hh
      refine hsid ?_
      simp only [sidsOf, List.map_cons, List.mem_cons]
      exact Or.inr (by simpa [sidsOf] using hh)
    have h1 := ih (fragRemove e.child frag) sid hrest
    rw [phase1_cons]
    by_cases hk : k1 ∈ ids
    · simp only [hk, if_true, List.countP_cons]
      simp [isDs, h1]
    · simp only [hk, if_false, List.countP_cons, List.countP_append,
        fTeardown_countP_ds]
      simp [isDs, hne, h1]

lemma phase1_ds (cm : CleanupMode) (ids : List Key) :
    ∀ (m : List (Key × ForEntry Item)) (frag : List Nat) (k : Key)
      (e : ForEntry Item),
      (keysOf m).Nodup → (sidsOf m).Nodup → lookupE k m = some e →
      (phase1 cm ids m frag).2.2.countP (isDs e.sid) =
        if k ∈ ids then 0 else 1 := by
  intro m
  induction m with
  | nil => intro frag k e _ _ h; simp [lookupE] at h
  | cons p rest ih =>
    obtain ⟨k1, e1⟩ := p
    intro frag k e hkeys hsids hl
    have hkeys2 : (keysOf rest).Nodup := by
      simpa [keysOf] using hkeys.of_cons
    have hsids2 : (sidsOf rest).Nodup := by
      simpa [sidsOf] using hsids.of_cons
    have hs1 : e1.sid ∉ sidsOf rest := by
      simp only [sidsOf, List.map_cons, List.nodup_cons] at hsids
      exact hsids.1
    rw [phase1_cons]
    by_cases hk : k1 = k
    · subst hk
      simp only [lookupE, if_pos rfl] at hl
      injection hl with h2
      subst h2
      have hz := phase1_ds_notin cm ids rest (fragRemove e1.child frag)
        e1.sid hs1
      by_cases hin : k1 ∈ ids
      · simp only [hin, if_true, List.countP_cons]
        simp [isDs, hz]
      · simp only [hin, if_false, List.countP_cons, List.countP_append,
          fTeardown_countP_ds]
        simp [isDs, hz]
    · simp only [lookupE, hk, if_false] at hl
      have hne : ¬ e1.sid = e.sid := by
        intro hh
        exact hs1 (hh ▸ lookupE_mem_sid k rest e hl)
      have h1 := ih (fragRemove e1.child frag) k e hkeys2 hsids2 hl
      by_cases hin : k1 ∈ ids
      · simp only [hin, if_true, List.countP_cons]
        simp [isDs, h1]
      · simp only [hin, if_false, List.countP_cons, List.countP_append,
          fTeardown_countP_ds]
        simp [isDs, hne, h1]

lemma phase1_td (cm : CleanupMode) (ids : List Key) :
    ∀ (m : List (Key × ForEntry Item)) (frag : List Nat) (k : Key),
      (keysOf m).Nodup →
      (phase1 cm ids m frag).2.2.countP (isTd k) =
        if k ∈ keysOf m ∧ k ∉ ids ∧ cm ≠ .disabled then 1 else 0 := by
  intro m
  induction m with
  | nil => intro frag k _; simp [phase1, keysOf]
  | cons p rest ih =>
    obtain ⟨k1, e⟩ := p
    intro frag k hkeys
    have hkeys2 : (keysOf rest).Nodup := by
      simpa [keysOf] using hkeys.of_cons
    have hk1 : k1 ∉ keysOf rest := by
      simp only [keysOf, List.map_cons, List.nodup_cons] at hkeys
      exact hkeys.1
    have h1 := ih (fragRemove e.child frag) k hkeys2
    rw [phase1_cons]
    by_cases hkk : k1 = k
    · subst hkk
      have hz : (phase1 cm ids rest
          (fragRemove e.child frag)).2.2.countP (isTd k1) = 0 := by
        rw [h1]
        simp [hk1]
      by_cases hin : k1 ∈ ids
      · simp only [hin, if_true, List.countP_cons]
        simp [isTd, hz, keysOf, hin]
      · simp only [hin, if_false, List.countP_cons, List.countP_append,
          fTeardown_countP_td, hz]
        cases cm <;> simp [isTd, keysOf, hin]
    · have hne : ¬ k = k1 := fun hh => hkk hh.symm
      have hmm : (k ∈ keysOf ((k1, e) :: rest)) = (k ∈ keysOf rest) := by
        simp only [keysOf, List.map_cons, List.mem_cons]
        simp [hne]
      by_cases hin : k1 ∈ ids
      · simp only [hin, if_true, List.countP_cons]
        simp [isTd, hkk, h1, hmm]
      · simp only [hin, if_false, List.countP_cons, List.countP_append,
          fTeardown_countP_td, hkk]
        simp [isTd, hkk, h1, hmm]

end ForPhase1

section ForPhase2

variable {Item Key : Type} [DecidableEq Key]

/-- Position of a key in the materialized id list (its new index). -/
def posOf (k : Key) : List Key → Nat
  | [] => 0
  | k1 :: rest => if k1 = k then 0 else posOf k rest + 1

lemma lookupE_mem_pair (k : Key) :
    ∀ (m : List (Key × ForEntry Item)) (e : ForEntry Item),
      lookupE k m = some e → (k, e) ∈ m := by
  intro m
  induction m with
  | nil => intro e h; simp [lookupE] at h
  | cons p rest ih =>
    obtain ⟨k1, e1⟩ := p
    intro e h
    by_cases hk : k1 = k
    · subst hk
      simp only [lookupE, if_pos rfl] at h
      injection h with h2
      subst h2
      exact List.mem_cons_self _ _
    · simp only [lookupE, hk, if_false] at h
      exact List.mem_cons_of_mem _ (ih e h)

lemma setIdxE_mem (k : Key) (i : Nat) :
    ∀ (m : List (Key × ForEntry Item)) (p : Key × ForEntry Item),
      p ∈ setIdxE k i m →
      ∃ q ∈ m, p.1 = q.1 ∧ p.2.child = q.2.child ∧ p.2.sid = q.2.sid := by
  intro m
  induction m with
  | nil => intro p h; simp [setIdxE] at h
  | cons q rest ih =>
    obtain ⟨k1, e1⟩ := q
    intro p hp
    by_cases hk : k1 = k
    · subst hk
      have hset : setIdxE k1 i ((k1, e1) :: rest) =
          (k1, { e1 with idx := i }) :: rest := by
        simp [setIdxE]
      rw [hset] at hp
      rcases List.mem_cons.1 hp with heq | hp3
      · exact ⟨(k1, e1), List.mem_cons_self _ _, by rw [heq], by rw [heq],
          by rw [heq]⟩
      · exact ⟨p, List.mem_cons_of_mem _ hp3, rfl, rfl, rfl⟩
    · have hset : setIdxE k i ((k1, e1) :: rest) =
          (k1, e1) :: setIdxE k i rest := by
        simp [setIdxE, hk]
      rw [hset] at hp
      rcases List.mem_cons.1 hp with heq | hp3
      · exact ⟨(k1, e1), List.mem_cons_self _ _, by rw [heq], by rw [heq],
          by rw [heq]⟩
      · obtain ⟨q2, hq2, h1, h2, h3⟩ := ih p hp3
        exact ⟨q2, List.mem_cons_of_mem _ hq2, h1, h2, h3⟩

lemma childrenOf_append_sing (m : List (Key × ForEntry Item))
    (x : Key × ForEntry Item) :
    childrenOf (m ++ [x]) = childrenOf m ++ [x.2.child] := by
  simp [childrenOf]

lemma phase2_cons_eq (idf : Item → Key) (parent : Nat) (it : Item)
    (rest : List Item) (i : Nat) (m : List (Key × ForEntry Item))
    (f : List Nat) (n : Nat) :
    phase2 idf parent (it :: rest) i m f n =
      (match lookupE (idf it) m with
       | some e =>
         if e.child ∈ f then
           ((phase2 idf parent rest (i + 1) (setIdxE (idf it) i m) f n).1,
            (phase2 idf parent rest (i + 1) (setIdxE (idf it) i m) f n).2.1,
            (phase2 idf parent rest (i + 1)
              (setIdxE (idf it) i m) f n).2.2.1,
            FEv.setIndex (idf it) i :: FEv.warnDup (idf it) ::
              (phase2 idf parent rest (i + 1)
                (setIdxE (idf it) i m) f n).2.2.2)
         else
           ((phase2 idf parent rest (i + 1) (setIdxE (idf it) i m)
              (f ++ [e.child]) n).1,
            (phase2 idf parent rest (i + 1) (setIdxE (idf it) i m)
              (f ++ [e.child]) n).2.1,
            (phase2 idf parent rest (i + 1) (setIdxE (idf it) i m)
              (f ++ [e.child]) n).2.2.1,
            FEv.setIndex (idf it) i :: FEv.addChild e.child ::
              (phase2 idf parent rest (i + 1) (setIdxE (idf it) i m)
                (f ++ [e.child]) n).2.2.2)
       | none =>
         ((phase2 idf parent rest (i + 1)
            (m ++ [(idf it, ⟨it, n + 1, i, n⟩)]) (f ++ [n + 1]) (n + 2)).1,
          (phase2 idf parent rest (i + 1)
            (m ++ [(idf it, ⟨it, n + 1, i, n⟩)]) (f ++ [n + 1]) (n + 2)).2.1,
          (phase2 idf parent rest (i + 1)
            (m ++ [(idf it, ⟨it, n + 1, i, n⟩)]) (f ++ [n + 1])
            (n + 2)).2.2.1,
          FEv.newScope n parent :: FEv.render (idf it) n (n + 1) i ::
            FEv.addChild (n + 1) ::
            (phase2 idf parent rest (i + 1)
              (m ++ [(idf it, ⟨it, n + 1, i, n⟩)]) (f ++ [n + 1])
              (n + 2)).2.2.2)) := rfl

lemma phase2_no_td_ds (idf : Item → Key) (parent : Nat) :
    ∀ (items : List Item) (i : Nat) (m : List (Key × ForEntry Item))
      (f : List Nat) (n : Nat) (k : Key) (sid : Nat),
      (phase2 idf parent items i m f n).2.2.2.countP (isTd k) = 0 ∧
      (phase2 idf parent items i m f n).2.2.2.countP (isDs sid) = 0 := by
  intro items
  induction items with
  | nil => intro i m f n k sid; exact ⟨rfl, rfl⟩
  | cons it rest ih =>
    intro i m f n k sid
    rw [phase2_cons_eq]
    cases hl : lookupE (idf it) m with
    | none =>
      obtain ⟨h1, h2⟩ := ih (i + 1) (m ++ [(idf it, ⟨it, n + 1, i, n⟩)])
        (f ++ [n + 1]) (n + 2) k sid
      simp only [hl]
      constructor <;> simp [List.countP_cons, isTd, isDs, h1, h2]
    | some e =>
      by_cases hc : e.child ∈ f
      · obtain ⟨h1, h2⟩ := ih (i + 1) (setIdxE (idf it) i m) f n k sid
        simp only [hl, hc, if_true]
        constructor <;> simp [List.countP_cons, isTd, isDs, h1, h2]
      · obtain ⟨h1, h2⟩ := ih (i + 1) (setIdxE (idf it) i m)
          (f ++ [e.child]) n k sid
        simp only [hl, hc, if_false]
        constructor <;> simp [List.countP_cons, isTd, isDs, h1, h2]

lemma phase2_master (idf : Item → Key) (parent : Nat) :
    ∀ (items : List Item) (i : Nat) (m : List (Key × ForEntry Item))
      (f : List Nat) (n : Nat),
      (items.map idf).Nodup →
      (keysOf m).Nodup →
      (childrenOf m).Nodup →
      (∀ p ∈ m, p.2.child < n) →
      (∀ c ∈ f, c < n) →
      (∀ it ∈ items, ∀ e, lookupE (idf it) m = some e → e.child ∉ f) →
      (∀ k, k ∉ items.map idf →
        lookupE k (phase2 idf parent items i m f n).1 = lookupE k m) ∧
      (∀ k e, lookupE k m = some e → k ∈ items.map idf →
        lookupE k (phase2 idf parent items i m f n).1 =
          some { e with idx := i + posOf k (items.map idf) }) ∧
      (∀ it2 ∈ items, idf it2 ∉ keysOf m →
        ∃ sid, n ≤ sid ∧
          lookupE (idf it2) (phase2 idf parent items i m f n).1 =
            some ⟨it2, sid + 1, i + posOf (idf it2) (items.map idf), sid⟩ ∧
          FEv.newScope sid parent ∈
            (phase2 idf parent items i m f n).2.2.2 ∧
          FEv.render (idf it2) sid (sid + 1)
              (i + posOf (idf it2) (items.map idf)) ∈
            (phase2 idf parent items i m f n).2.2.2) ∧
      (∀ k, (phase2 idf parent items i m f n).2.2.2.countP (isRender k) =
        if k ∈ items.map idf ∧ k ∉ keysOf m then 1 else 0) ∧
      (∀ k e, lookupE k m = some e → k ∈ items.map idf →
        (phase2 idf parent items i m f n).2.2.2.countP (isSetIdx k) = 1 ∧
        FEv.setIndex k (i + posOf k (items.map idf)) ∈
          (phase2 idf parent items i m f n).2.2.2) ∧
      (∀ k, k ∉ items.map idf →
        (phase2 idf parent items i m f n).2.2.2.countP (isSetIdx k) = 0) ∧
      (∀ k, (phase2 idf parent items i m f n).2.2.2.countP (isWarn k) = 0) ∧
      (phase2 idf parent items i m f n).2.1 =
        f ++ items.map (fun it2 =>
          childAt (idf it2) (phase2 idf parent items i m f n).1) := by
  intro items
  induction items with
  | nil =>
    intro i m f n _ _ _ _ _ _
    refine ⟨fun k _ => rfl, fun k e hl hk => by simp at hk,
      fun it2 hit => by simp at hit, fun k => by simp [phase2],
      fun k e hl hk => by simp at hk, fun k _ => rfl, fun k => rfl,
      by simp [phase2]⟩
  | cons it rest ih =>
    intro i m f n hids hkeys hchild hbound hf hdisj
    have hidnd : (rest.map idf).Nodup := by
      simpa using hids.of_cons
    have hknotin : idf it ∉ rest.map idf := by
      simp only [List.map_cons, List.nodup_cons] at hids
      exact hids.1
    cases hl : lookupE (idf it) m with
    | some e =>
      have hke : (idf it, e) ∈ m := lookupE_mem_pair _ m e hl
      have hcn : e.child < n := hbound (idf it, e) hke
      have hcf : e.child ∉ f := hdisj it (List.mem_cons_self _ _) e hl
      have hkeys2 : (keysOf (setIdxE (idf it) i m)).Nodup := by
        rw [keysOf_setIdx]
        exact hkeys
      have hchild2 : (childrenOf (setIdxE (idf it) i m)).Nodup := by
        rw [childrenOf_setIdx]
        exact hchild
      have hbound2 : ∀ p ∈ setIdxE (idf it) i m, p.2.child < n := by
        intro p hp
        obtain ⟨q, hq, _, h2, _⟩ := setIdxE_mem _ _ m p hp
        rw [h2]
        exact hbound q hq
      have hf2 : ∀ c ∈ f ++ [e.child], c < n := by
        intro c hc
        rcases List.mem_append.1 hc with hc | hc
        · exact hf c hc
        · rw [List.mem_singleton.1 hc]
          exact hcn
      have hdisj2 : ∀ it2 ∈ rest, ∀ e2,
          lookupE (idf it2) (setIdxE (idf it) i m) = some e2 →
          e2.child ∉ f ++ [e.child] := by
        intro it2 hit2 e2 hl2
        have hne : idf it2 ≠ idf it := by
          intro hh
          exact hknotin (hh ▸ List.mem_map_of_mem idf hit2)
        rw [lookupE_setIdx_ne (idf it) (idf it2) i hne m] at hl2
        intro hmem
        rcases List.mem_append.1 hmem with hm | hm
        · exact hdisj it2 (List.mem_cons_of_mem _ hit2) e2 hl2 hm
        · exact lookupE_children_ne (idf it2) (idf it) m e2 e hchild hne
            hl2 hl (List.mem_singleton.1 hm)
      obtain ⟨iU, iS, iN, iR, iSI, iSZ, iW, iF⟩ := ih (i + 1)
        (setIdxE (idf it) i m) (f ++ [e.child]) n hidnd hkeys2 hchild2
        hbound2 hf2 hdisj2
      rw [phase2_cons_eq]
      simp only [hl]
      rw [if_neg hcf]
      have hlookR : lookupE (idf it)
          (phase2 idf parent rest (i + 1) (setIdxE (idf it) i m)
            (f ++ [e.child]) n).1 = some { e with idx := i } := by
        rw [iU (idf it) hknotin, lookupE_setIdx_self, hl]
        rfl
      refine ⟨?_, ?_, ?_, ?_, ?_, ?_, ?_, ?_⟩
      · intro k hk
        simp only [List.map_cons, List.mem_cons] at hk
        push_neg at hk
        rw [iU k hk.2]
        exact lookupE_setIdx_ne (idf it) k i (hk.1) m
      · intro k e2 hl2 hk
        by_cases hkk : k = idf it
        · subst hkk
          rw [hl] at hl2
          injection hl2 with h2
          subst h2
          rw [hlookR]
          simp [posOf]
        · simp only [List.map_cons, List.mem_cons] at hk
          rcases hk with hk | hk
          · exact absurd hk hkk
          · have hl3 : lookupE k (setIdxE (idf it) i m) = some e2 := by
              rw [lookupE_setIdx_ne (idf it) k i hkk m]
              exact hl2
            rw [iS k e2 hl3 hk]
            have harith : i + 1 + posOf k (rest.map idf) =
                i + posOf k (List.map idf (it :: rest)) := by
              have : ¬ idf it = k := fun hh => hkk hh.symm
              simp only [List.map_cons, posOf, this, if_false]
              omega
            rw [harith]
      · intro it2 hit2 hnotk
        rcases List.mem_cons.1 hit2 with rfl | hit2
        · exfalso
          have := (lookupE_none_iff (idf it2) m).2 hnotk
          rw [hl] at this
          exact Option.noConfusion this
        · have hne : idf it2 ≠ idf it := by
            intro hh
            exact hknotin (hh ▸ List.mem_map_of_mem idf hit2)
          have hnotk2 : idf it2 ∉ keysOf (setIdxE (idf it) i m) := by
            rw [keysOf_setIdx]
            exact hnotk
          obtain ⟨sid, hsid, hlook, hns, hrd⟩ := iN it2 hit2 hnotk2
          refine ⟨sid, hsid, ?_, ?_, ?_⟩
          · rw [hlook]
            have harith : i + 1 + posOf (idf it2) (rest.map idf) =
                i + posOf (idf it2) (List.map idf (it :: rest)) := by
              have : ¬ idf it = idf it2 := fun hh => hne hh.symm
              simp only [List.map_cons, posOf, this, if_false]
              omega
            rw [harith]
          · exact List.mem_cons_of_mem _ (List.mem_cons_of_mem _ hns)
          · have harith : i + 1 + posOf (idf it2) (rest.map idf) =
                i + posOf (idf it2) (List.map idf (it :: rest)) := by
              have : ¬ idf it = idf it2 := fun hh => hne hh.symm
              simp only [List.map_cons, posOf, this, if_false]
              omega
            rw [← harith]
            exact List.mem_cons_of_mem _ (List.mem_cons_of_mem _ hrd)
      · intro k
        have hmk : k ∈ keysOf m → ¬ (k ∈ List.map idf (it :: rest) ∧
            k ∉ keysOf m) := by
          intro hk hcon
          exact hcon.2 hk
        rw [List.countP_cons, List.countP_cons]
        have hR := iR k
        rw [keysOf_setIdx] at hR
        by_cases hkk : k = idf it
        · subst hkk
          have hkm : idf it ∈ keysOf m := by
            by_contra hno
            have hcon := (lookupE_none_iff (idf it) m).2 hno
            rw [hl] at hcon
            exact Option.noConfusion hcon
          rw [hR]
          simp [isRender, hkm, hknotin]
        · rw [hR]
          have hmem : (k ∈ List.map idf (it :: rest)) =
              (k ∈ rest.map idf) := by
            simp only [List.map_cons, List.mem_cons]
            have : ¬ k = idf it := hkk
            simp [this]
          simp [isRender, hkk, hmem]
      · intro k e2 hl2 hk
        rw [List.countP_cons, List.countP_cons]
        by_cases hkk : k = idf it
        · subst hkk
          have hz := iSZ (idf it) hknotin
          rw [hz]
          constructor
          · simp [isSetIdx]
          · have hid : i + posOf (idf it) (List.map idf (it :: rest)) = i := by
              simp [posOf]
            rw [hid]
            exact List.mem_cons_self _ _
        · simp only [List.map_cons, List.mem_cons] at hk
          rcases hk with hk | hk
          · exact absurd hk hkk
          · have hl3 : lookupE k (setIdxE (idf it) i m) = some e2 := by
              rw [lookupE_setIdx_ne (idf it) k i hkk m]
              exact hl2
            obtain ⟨hc1, hc2⟩ := iSI k e2 hl3 hk
            have harith : i + 1 + posOf k (rest.map idf) =
                i + posOf k (List.map idf (it :: rest)) := by
              have : ¬ idf it = k := fun hh => hkk hh.symm
              simp only [List.map_cons, posOf, this, if_false]
              omega
            have hne2 : ¬ idf it = k := fun hh => hkk hh.symm
            constructor
            · rw [hc1]
              simp [isSetIdx, hne2]
            · rw [← harith]
              exact List.mem_cons_of_mem _ (List.mem_cons_of_mem _ hc2)
      · intro k hk
        simp only [List.map_cons, List.mem_cons] at hk
        push_neg at hk
        have hne2 : ¬ idf it = k := fun hh => hk.1 hh.symm
        rw [List.countP_cons, List.countP_cons, iSZ k hk.2]
        simp [isSetIdx, hne2]
      · intro k
        rw [List.countP_cons, List.countP_cons, iW k]
        simp [isWarn]
      · rw [iF]
        have hchd : childAt (idf it)
            (phase2 idf parent rest (i + 1) (setIdxE (idf it) i m)
              (f ++ [e.child]) n).1 = e.child := by
          rw [childAt, hlookR]
          rfl
        simp only [List.map_cons]
        rw [hchd]
        simp
    | none =>
      have hk0 : idf it ∉ keysOf m := (lookupE_none_iff (idf it) m).1 hl
      have hkeys2 : (keysOf (m ++ [(idf it,
          (⟨it, n + 1, i, n⟩ : ForEntry Item))])).Nodup := by
        rw [keysOf_append_sing]
        exact List.Nodup.append hkeys (List.nodup_singleton _)
          (by simpa using hk0)
      have hchild2 : (childrenOf (m ++ [(idf it,
          (⟨it, n + 1, i, n⟩ : ForEntry Item))])).Nodup := by
        rw [childrenOf_append_sing]
        refine List.Nodup.append hchild (List.nodup_singleton _) ?_
        intro c hc
        have : c < n := by
          simp only [childrenOf, List.mem_map] at hc
          obtain ⟨p, hp, hpc⟩ := hc
          rw [← hpc]
          exact hbound p hp
        simp only [List.mem_singleton]
        omega
      have hbound2 : ∀ p ∈ m ++ [(idf it,
          (⟨it, n + 1, i, n⟩ : ForEntry Item))], p.2.child < n + 2 := by
        intro p hp
        rcases List.mem_append.1 hp with hp | hp
        · have := hbound p hp
          omega
        · rw [List.mem_singleton.1 hp]
          show n + 1 < n + 2
          omega
      have hf2 : ∀ c ∈ f ++ [n + 1], c < n + 2 := by
        intro c hc
        rcases List.mem_append.1 hc with hc | hc
        · have := hf c hc
          omega
        · rw [List.mem_singleton.1 hc]
          omega
      have hdisj2 : ∀ it2 ∈ rest, ∀ e2,
          lookupE (idf it2) (m ++ [(idf it,
            (⟨it, n + 1, i, n⟩ : ForEntry Item))]) = some e2 →
          e2.child ∉ f ++ [n + 1] := by
        intro it2 hit2 e2 hl2
        have hne : idf it2 ≠ idf it := by
          intro hh
          exact hknotin (hh ▸ List.mem_map_of_mem idf hit2)
        rw [lookupE_append_sing] at hl2
        intro hmem
        cases hlm : lookupE (idf it2) m with
        | some e3 =>
          rw [hlm] at hl2
          simp only at hl2
          injection hl2 with h2
          subst h2
          rcases List.mem_append.1 hmem with hm | hm
          · exact hdisj it2 (List.mem_cons_of_mem _ hit2) e3 hlm hm
          · have hlt : e3.child < n :=
              hbound (idf it2, e3) (lookupE_mem_pair _ m e3 hlm)
            rw [List.mem_singleton.1 hm] at hlt
            omega
        | none =>
          rw [hlm] at hl2
          simp only at hl2
          have : ¬ idf it = idf it2 := fun hh => hne hh.symm
          rw [if_neg this] at hl2
          exact Option.noConfusion hl2
      obtain ⟨iU, iS, iN, iR, iSI, iSZ, iW, iF⟩ := ih (i + 1)
        (m ++ [(idf it, ⟨it, n + 1, i, n⟩)]) (f ++ [n + 1]) (n + 2)
        hidnd hkeys2 hchild2 hbound2 hf2 hdisj2
      rw [phase2_cons_eq]
      simp only [hl]
      have hlookR : lookupE (idf it)
          (phase2 idf parent rest (i + 1)
            (m ++ [(idf it, ⟨it, n + 1, i, n⟩)]) (f ++ [n + 1])
            (n + 2)).1 = some (⟨it, n + 1, i, n⟩ : ForEntry Item) := by
        rw [iU (idf it) hknotin, lookupE_append_sing, hl]
        simp
      refine ⟨?_, ?_, ?_, ?_, ?_, ?_, ?_, ?_⟩
      · intro k hk
        simp only [List.map_cons, List.mem_cons] at hk
        push_neg at hk
        rw [iU k hk.2, lookupE_append_sing]
        cases hlm : lookupE k m with
        | some e3 => rfl
        | none =>
          simp only
          rw [if_neg (fun hh => hk.1 hh.symm)]
      · intro k e2 hl2 hk
        by_cases hkk : k = idf it
        · subst hkk
          rw [hl] at hl2
          exact Option.noConfusion hl2
        · simp only [List.map_cons, List.mem_cons] at hk
          rcases hk with hk | hk
          · exact absurd hk hkk
          · have hl3 : lookupE k (m ++ [(idf it,
                (⟨it, n + 1, i, n⟩ : ForEntry Item))]) = some e2 := by
              rw [lookupE_append_sing, hl2]
            rw [iS k e2 hl3 hk]
            have harith : i + 1 + posOf k (rest.map idf) =
                i + posOf k (List.map idf (it :: rest)) := by
              have : ¬ idf it = k := fun hh => hkk hh.symm
              simp only [List.map_cons, posOf, this, if_false]
              omega
            rw [harith]
      · intro it2 hit2 hnotk
        rcases List.mem_cons.1 hit2 with rfl | hit2
        · refine ⟨n, le_refl n, ?_, List.mem_cons_self _ _, ?_⟩
          · rw [hlookR]
            have : i + posOf (idf it2) (List.map idf (it2 :: rest)) = i := by
              simp [posOf]
            rw [this]
          · have : i + posOf (idf it2) (List.map idf (it2 :: rest)) = i := by
              simp [posOf]
            rw [this]
            exact List.mem_cons_of_mem _ (List.mem_cons_self _ _)
        · have hne : idf it2 ≠ idf it := by
            intro hh
            exact hknotin (hh ▸ List.mem_map_of_mem idf hit2)
          have hnotk2 : idf it2 ∉ keysOf (m ++ [(idf it,
              (⟨it, n + 1, i, n⟩ : ForEntry Item))]) := by
            rw [keysOf_append_sing]
            intro hmem
            rcases List.mem_append.1 hmem with hm | hm
            · exact hnotk hm
            · exact hne (List.mem_singleton.1 hm)
          obtain ⟨sid, hsid, hlook, hns, hrd⟩ := iN it2 hit2 hnotk2
          refine ⟨sid, by omega, ?_, ?_, ?_⟩
          · rw [hlook]
            have harith : i + 1 + posOf (idf it2) (rest.map idf) =
                i + posOf (idf it2) (List.map idf (it :: rest)) := by
              have : ¬ idf it = idf it2 := fun hh => hne hh.symm
              simp only [List.map_cons, posOf, this, if_false]
              omega
            rw [harith]
          · exact List.mem_cons_of_mem _ (List.mem_cons_of_mem _
              (List.mem_cons_of_mem _ hns))
          · have harith : i + 1 + posOf (idf it2) (rest.map idf) =
                i + posOf (idf it2) (List.map idf (it :: rest)) := by
              have : ¬ idf it = idf it2 := fun hh => hne hh.symm
              simp only [List.map_cons, posOf, this, if_false]
              omega
            rw [← harith]
            exact List.mem_cons_of_mem _ (List.mem_cons_of_mem _
              (List.mem_cons_of_mem _ hrd))
      · intro k
        rw [List.countP_cons, List.countP_cons, List.countP_cons]
        have hR := iR k
        rw [keysOf_append_sing] at hR
        by_cases hkk : k = idf it
        · subst hkk
          have hc : ¬ (idf it ∈ rest.map idf ∧
              idf it ∉ keysOf m ++ [idf it]) := fun hcon => hknotin hcon.1
          rw [hR, if_neg hc]
          simp [isRender, hk0]
        · have hmm : (k ∉ keysOf m ++ [idf it]) = (k ∉ keysOf m) := by
            simp only [List.mem_append, List.mem_singleton]
            simp [hkk]
          have hmem : (k ∈ List.map idf (it :: rest)) =
              (k ∈ rest.map idf) := by
            simp only [List.map_cons, List.mem_cons]
            simp [hkk]
          have hne2 : ¬ idf it = k := fun hh => hkk hh.symm
          rw [hR]
          simp only [hmm, hmem]
          simp [isRender, hne2]
      · intro k e2 hl2 hk
        have hkk : k ≠ idf it := by
          intro hh
          rw [hh, hl] at hl2
          exact Option.noConfusion hl2
        have hl3 : lookupE k (m ++ [(idf it,
            (⟨it, n + 1, i, n⟩ : ForEntry Item))]) = some e2 := by
          rw [lookupE_append_sing, hl2]
        simp only [List.map_cons, List.mem_cons] at hk
        rcases hk with hk | hk
        · exact absurd hk hkk
        · obtain ⟨hc1, hc2⟩ := iSI k e2 hl3 hk
          have harith : i + 1 + posOf k (rest.map idf) =
              i + posOf k (List.map idf (it :: rest)) := by
            have : ¬ idf it = k := fun hh => hkk hh.symm
            simp only [List.map_cons, posOf, this, if_false]
            omega
          constructor
          · rw [List.countP_cons, List.countP_cons, List.countP_cons, hc1]
            simp [isSetIdx]
          · rw [← harith]
            exact List.mem_cons_of_mem _ (List.mem_cons_of_mem _
              (List.mem_cons_of_mem _ hc2))
      · intro k hk
        simp only [List.map_cons, List.mem_cons] at hk
        push_neg at hk
        rw [List.countP_cons, List.countP_cons, List.countP_cons,
          iSZ k hk.2]
        simp [isSetIdx]
      · intro k
        rw [List.countP_cons, List.countP_cons, List.countP_cons, iW k]
        simp [isWarn]
      · rw [iF]
        have hchd : childAt (idf it)
            (phase2 idf parent rest (i + 1)
              (m ++ [(idf it, ⟨it, n + 1, i, n⟩)]) (f ++ [n + 1])
              (n + 2)).1 = n + 1 := by
          rw [childAt, hlookR]
          rfl
        simp only [List.map_cons]
        rw [hchd]
        simp

end ForPhase2

section ForPass

variable {Item Key : Type} [DecidableEq Key]

lemma lookupE_filter (k : Key) (ids : List Key) :
    ∀ m : List (Key × ForEntry Item),
      lookupE k (m.filter (fun p => decide (p.1 ∈ ids))) =
        if k ∈ ids then lookupE k m else none := by
  intro m
  induction m with
  | nil => by_cases hk : k ∈ ids <;> simp [lookupE, hk]
  | cons p rest ih =>
    obtain ⟨k1, e⟩ := p
    by_cases h1 : k1 ∈ ids
    · by_cases hk : k1 = k
      · subst hk
        simp [List.filter_cons, h1, lookupE]
      · simp [List.filter_cons, h1, lookupE, hk, ih]
    · by_cases hk : k1 = k
      · subst hk
        simp [List.filter_cons, h1, lookupE, ih]
      · simp [List.filter_cons, h1, lookupE, hk, ih]

lemma keysOf_filter_sublist (ids : List Key)
    (m : List (Key × ForEntry Item)) :
    List.Sublist (keysOf (m.filter (fun p => decide (p.1 ∈ ids))))
      (keysOf m) :=
  List.Sublist.map Prod.fst (List.filter_sublist m)

lemma childrenOf_filter_sublist (ids : List Key)
    (m : List (Key × ForEntry Item)) :
    List.Sublist (childrenOf (m.filter (fun p => decide (p.1 ∈ ids))))
      (childrenOf m) := by
  have h : List.Sublist
      (List.map (fun p : Key × ForEntry Item => p.2.child)
        (List.filter (fun p => decide (p.1 ∈ ids)) m))
      (List.map (fun p : Key × ForEntry Item => p.2.child) m) :=
    List.Sublist.map _ (List.filter_sublist m)
  exact h

lemma forCallback_eq (idf : Item → Key) (parent : Nat) (cm : CleanupMode)
    (items : List Item) (s : ForState Item Key) :
    forCallback idf parent cm items s =
      (⟨(phase2 idf parent items 0
            (phase1 cm (items.map idf) s.map s.frag).1
            (phase1 cm (items.map idf) s.map s.frag).2.1 s.next).1,
        (phase2 idf parent items 0
            (phase1 cm (items.map idf) s.map s.frag).1
            (phase1 cm (items.map idf) s.map s.frag).2.1 s.next).2.1,
        (phase2 idf parent items 0
            (phase1 cm (items.map idf) s.map s.frag).1
            (phase1 cm (items.map idf) s.map s.frag).2.1 s.next).2.2.1⟩,
       (phase1 cm (items.map idf) s.map s.frag).2.2 ++
         (phase2 idf parent items 0
            (phase1 cm (items.map idf) s.map s.frag).1
            (phase1 cm (items.map idf) s.map s.frag).2.1
            s.next).2.2.2) := rfl

end ForPass

/-- State of a collection reconciler tracking the single key `1` with output
`2` and owned scope `1`, used to exercise a pass that removes it. -/
def forCexState : ForState Nat Nat :=
  ⟨[(1, ⟨1, 2, 0, 1⟩)], [2], 3⟩

/-- Counterexample to C1: with the `cleanup: null` configuration (the
documented Gtk4 default), a pass that removes the only tracked key disposes
its scope but never invokes any teardown, contrary to the claim that every
removed key "has its teardown invoked … exactly once". -/
theorem for_reconciler_cex :
    lookupE 1 forCexState.map = some ⟨1, 2, 0, 1⟩ ∧
    (1 : Nat) ∉ (([] : List Nat).map (fun x => x)) ∧
    (forCallback (fun x => x) 0 CleanupMode.disabled [] forCexState).2.countP
      (isTd 1) = 0 ∧
    (forCallback (fun x => x) 0 CleanupMode.disabled [] forCexState).2.countP
      (isDs 1) = 1 := by
  decide

/-- **C1** (amended): in a collection-reconciler pass over an input whose
keys are pairwise distinct, starting from a well-formed tracked state:
every previously tracked key absent from the new input has its owned scope
disposed exactly once and is dropped from the map, and its teardown is
invoked exactly once unless cleanup is explicitly disabled (`cleanup:
null`), in which case no teardown runs; every surviving key keeps its
entry (item, output, scope) with only the index updated to the key's new
position, triggers no render and exactly one index-signal update; every
new key gets a fresh child scope parented to the reconciler's scope and
exactly one render call inside it with a fresh index signal; no duplicate
warning fires, and the final fragment is exactly the tracked outputs in
input order (re-appended at the end). -/
theorem for_reconciler_amended {Item Key : Type} [DecidableEq Key]
    (idf : Item → Key) (parent : Nat) (cm : CleanupMode)
    (items : List Item) (s : ForState Item Key)
    (r : ForState Item Key × List (FEv Key))
    (hinv : ForInv s) (hids : (items.map idf).Nodup)
    (hr : r = forCallback idf parent cm items s) :
    (∀ k e, lookupE k s.map = some e → k ∉ items.map idf →
      r.2.countP (isTd k) = (if cm = .disabled then 0 else 1) ∧
      r.2.countP (isDs e.sid) = 1 ∧
      lookupE k r.1.map = none) ∧
    (∀ k e, lookupE k s.map = some e → k ∈ items.map idf →
      lookupE k r.1.map = some { e with idx := posOf k (items.map idf) } ∧
      r.2.countP (isRender k) = 0 ∧
      r.2.countP (isSetIdx k) = 1 ∧
      FEv.setIndex k (posOf k (items.map idf)) ∈ r.2) ∧
    (∀ it ∈ items, idf it ∉ keysOf s.map →
      ∃ sid, s.next ≤ sid ∧
        lookupE (idf it) r.1.map =
          some ⟨it, sid + 1, posOf (idf it) (items.map idf), sid⟩ ∧
        FEv.newScope sid parent ∈ r.2 ∧
        FEv.render (idf it) sid (sid + 1)
          (posOf (idf it) (items.map idf)) ∈ r.2 ∧
        r.2.countP (isRender (idf it)) = 1) ∧
    (∀ k, r.2.countP (isWarn k) = 0) ∧
    r.1.frag = items.map (fun it => childAt (idf it) r.1.map) := by
  subst hr
  obtain ⟨hkeys, hchild, hsids, hperm, hbnd⟩ := hinv
  have hm1 : (phase1 cm (items.map idf) s.map s.frag).1 =
      s.map.filter (fun p => decide (p.1 ∈ items.map idf)) :=
    phase1_map cm (items.map idf) s.map s.frag
  have hf1 : (phase1 cm (items.map idf) s.map s.frag).2.1 = [] :=
    phase1_frag cm (items.map idf) s.map s.frag hperm hchild
  have hkeysF : (keysOf (s.map.filter
      (fun p => decide (p.1 ∈ items.map idf)))).Nodup :=
    List.Nodup.sublist (keysOf_filter_sublist _ s.map) hkeys
  have hchildF : (childrenOf (s.map.filter
      (fun p => decide (p.1 ∈ items.map idf)))).Nodup :=
    List.Nodup.sublist (childrenOf_filter_sublist _ s.map) hchild
  have hboundF : ∀ p ∈ s.map.filter
      (fun p => decide (p.1 ∈ items.map idf)), p.2.child < s.next :=
    fun p hp => (hbnd p (List.mem_of_mem_filter hp)).1
  obtain ⟨iU, iS, iN, iR, iSI, iSZ, iW, iF⟩ :=
    phase2_master idf parent items 0
      (s.map.filter (fun p => decide (p.1 ∈ items.map idf))) [] s.next
      hids hkeysF hchildF hboundF (by intro c hc; simp at hc)
      (by intro it hit e hl; simp)
  rw [forCallback_eq, hm1, hf1]
  dsimp only
  refine ⟨?_, ?_, ?_, ?_, ?_⟩
  · intro k e hl hk
    have hkm : k ∈ keysOf s.map := by
      by_contra hno
      have hcon := (lookupE_none_iff k s.map).2 hno
      rw [hl] at hcon
      exact Option.noConfusion hcon
    refine ⟨?_, ?_, ?_⟩
    · rw [List.countP_append,
        phase1_td cm (items.map idf) s.map s.frag k hkeys,
        (phase2_no_td_ds idf parent items 0 _ [] s.next k 0).1]
      by_cases hcm : cm = .disabled <;> simp [hkm, hk, hcm]
    · rw [List.countP_append,
        phase1_ds cm (items.map idf) s.map s.frag k e hkeys hsids hl,
        (phase2_no_td_ds idf parent items 0 _ [] s.next k e.sid).2]
      simp [hk]
    · rw [iU k hk, lookupE_filter, if_neg hk]
  · intro k e hl hk
    have hlf : lookupE k (s.map.filter
        (fun p => decide (p.1 ∈ items.map idf))) = some e := by
      rw [lookupE_filter, if_pos hk, hl]
    have hkf : k ∈ keysOf (s.map.filter
        (fun p => decide (p.1 ∈ items.map idf))) := by
      by_contra hno
      have hcon := (lookupE_none_iff k _).2 hno
      rw [hlf] at hcon
      exact Option.noConfusion hcon
    refine ⟨?_, ?_, ?_, ?_⟩
    · have h2 := iS k e hlf hk
      rw [Nat.zero_add] at h2
      exact h2
    · rw [List.countP_append,
        (phase1_no_p2ev cm (items.map idf) s.map s.frag k).1, iR k]
      have hcc : ¬ (k ∈ items.map idf ∧ k ∉ keysOf (s.map.filter
          (fun p => decide (p.1 ∈ items.map idf)))) :=
        fun hcc => hcc.2 hkf
      rw [if_neg hcc]
    · rw [List.countP_append,
        (phase1_no_p2ev cm (items.map idf) s.map s.frag k).2.1,
        (iSI k e hlf hk).1]
    · have h2 := (iSI k e hlf hk).2
      rw [Nat.zero_add] at h2
      exact List.mem_append.2 (Or.inr h2)
  · intro it hit hnot
    have hnotF : idf it ∉ keysOf (s.map.filter
        (fun p => decide (p.1 ∈ items.map idf))) := by
      intro hmem
      exact hnot ((keysOf_filter_sublist _ s.map).subset hmem)
    obtain ⟨sid, hsid, hlook, hns, hrd⟩ := iN it hit hnotF
    rw [Nat.zero_add] at hlook hrd
    refine ⟨sid, hsid, hlook, List.mem_append.2 (Or.inr hns),
      List.mem_append.2 (Or.inr hrd), ?_⟩
    rw [List.countP_append,
      (phase1_no_p2ev cm (items.map idf) s.map s.frag (idf it)).1,
      iR (idf it)]
    have hcc : idf it ∈ items.map idf ∧ idf it ∉ keysOf (s.map.filter
        (fun p => decide (p.1 ∈ items.map idf))) :=
      ⟨List.mem_map_of_mem idf hit, hnotF⟩
    rw [if_pos hcc]
  · intro k
    rw [List.countP_append,
      (phase1_no_p2ev cm (items.map idf) s.map s.frag k).2.2, iW k]
  · rw [iF]
    simp

/-- A well-formed reconciler state tracking keys 1, 2, 3 (outputs 5, 7, 9,
scopes 4, 6, 8), used to exercise a pass that removes key 2 and reorders
the survivors to [3, 1]. -/
def forWitState : ForState Nat Nat :=
  ⟨[(1, ⟨1, 5, 0, 4⟩), (2, ⟨2, 7, 1, 6⟩), (3, ⟨3, 9, 2, 8⟩)], [5, 7, 9], 10⟩

theorem for_reconciler_amended_witness :
    (forCallback (fun x : Nat => x) 0 CleanupMode.envDefault [3, 1]
      forWitState).2.countP (isTd 2) = 1 ∧
    (forCallback (fun x : Nat => x) 0 CleanupMode.envDefault [3, 1]
      forWitState).2.countP (isDs 6) = 1 ∧
    lookupE 2 (forCallback (fun x : Nat => x) 0 CleanupMode.envDefault [3, 1]
      forWitState).1.map = none := by
  have h := (for_reconciler_amended (fun x : Nat => x) 0
      CleanupMode.envDefault [3, 1] forWitState _
      ⟨by decide, by decide, by decide, by decide, by decide⟩ (by decide)
      rfl).1 2 ⟨2, 7, 1, 6⟩ (by decide) (by decide)
  refine ⟨?_, h.2.1, h.2.2⟩
  rw [h.1]
  decide

section ForDup

variable {Item Key : Type} [DecidableEq Key]

def isAdd {Key : Type} (c : Nat) : FEv Key → Bool
  | .addChild c1 => decide (c1 = c)
  | _ => false

lemma fTeardown_countP_add (cm : CleanupMode) (k1 : Key) (c c' : Nat) :
    (fTeardown cm k1 c).countP (isAdd c') = 0 := by
  cases cm <;> simp [fTeardown, isAdd]

lemma phase1_no_add (cm : CleanupMode) (ids : List Key) :
    ∀ (m : List (Key × ForEntry Item)) (frag : List Nat) (c : Nat),
      (phase1 cm ids m frag).2.2.countP (isAdd c) = 0 := by
  intro m
  induction m with
  | nil => intro frag c; rfl
  | cons p rest ih =>
    obtain ⟨k1, e⟩ := p
    intro frag c
    have h1 := ih (fragRemove e.child frag) c
    rw [phase1_cons]
    by_cases hk : k1 ∈ ids
    · simp only [hk, if_true, List.countP_cons]
      simp [isAdd, h1]
    · simp only [hk, if_false, List.countP_cons, List.countP_append,
        fTeardown_countP_add]
      simp [isAdd, h1]

/-- The first item of the list whose key is `k` (the occurrence whose entry
the reconciler keeps when the key is duplicated). -/
def firstWith (idf : Item → Key) (k : Key) : List Item → Option Item
  | [] => none
  | it :: rest => if idf it = k then some it else firstWith idf k rest

lemma phase2_dupB (idf : Item → Key) (parent : Nat) :
    ∀ (items : List Item) (i : Nat) (m : List (Key × ForEntry Item))
      (f : List Nat) (n : Nat) (k : Key) (e0 : ForEntry Item),
      (keysOf m).Nodup → (childrenOf m).Nodup →
      (∀ p ∈ m, p.2.child < n) → (∀ c ∈ f, c < n) →
      lookupE k m = some e0 → e0.child ∈ f →
      (phase2 idf parent items i m f n).2.2.2.countP (isWarn k) =
        (items.map idf).count k ∧
      (phase2 idf parent items i m f n).2.2.2.countP (isRender k) = 0 ∧
      (phase2 idf parent items i m f n).2.2.2.countP (isAdd e0.child) = 0 ∧
      (∃ e, lookupE k (phase2 idf parent items i m f n).1 = some e ∧
        e.item = e0.item ∧ e.child = e0.child ∧ e.sid = e0.sid) ∧
      (keysOf (phase2 idf parent items i m f n).1).count k =
        (keysOf m).count k := by
  intro items
  induction items with
  | nil =>
    intro i m f n k e0 _ _ _ _ hlk _
    exact ⟨rfl, rfl, rfl, ⟨e0, hlk, rfl, rfl, rfl⟩, rfl⟩
  | cons it rest ih =>
    intro i m f n k e0 hkeys hchild hbound hf hlk hcf
    by_cases hkk : idf it = k
    · have hl : lookupE (idf it) m = some e0 := by rw [hkk]; exact hlk
      rw [phase2_cons_eq]
      simp only [hl]
      rw [if_pos hcf]
      have hkeys2 : (keysOf (setIdxE (idf it) i m)).Nodup := by
        rw [keysOf_setIdx]; exact hkeys
      have hchild2 : (childrenOf (setIdxE (idf it) i m)).Nodup := by
        rw [childrenOf_setIdx]; exact hchild
      have hbound2 : ∀ p ∈ setIdxE (idf it) i m, p.2.child < n := by
        intro p hp
        obtain ⟨q, hq, _, h2, _⟩ := setIdxE_mem _ _ m p hp
        rw [h2]
        exact hbound q hq
      have hlk2 : lookupE k (setIdxE (idf it) i m) =
          some { e0 with idx := i } := by
        rw [hkk, lookupE_setIdx_self, hlk]
        rfl
      obtain ⟨w, r0, a0, ⟨e, he, hi, hc, hs⟩, kc⟩ := ih (i + 1)
        (setIdxE (idf it) i m) f n k { e0 with idx := i }
        hkeys2 hchild2 hbound2 hf hlk2 hcf
      refine ⟨?_, ?_, ?_, ⟨e, he, hi, hc, hs⟩, ?_⟩
      · rw [List.countP_cons, List.countP_cons, w]
        simp [isWarn, hkk, List.count_cons]
      · rw [List.countP_cons, List.countP_cons, r0]
        simp [isRender]
      · rw [List.countP_cons, List.countP_cons]
        rw [a0]
        simp [isAdd]
      · rw [kc, keysOf_setIdx]
    · rw [phase2_cons_eq]
      have hne : ¬ k = idf it := fun hh => hkk hh.symm
      cases hl : lookupE (idf it) m with
      | some e1 =>
        have hlk2 : lookupE k (setIdxE (idf it) i m) = some e0 := by
          rw [lookupE_setIdx_ne (idf it) k i hne m]
          exact hlk
        have hkeys2 : (keysOf (setIdxE (idf it) i m)).Nodup := by
          rw [keysOf_setIdx]; exact hkeys
        have hchild2 : (childrenOf (setIdxE (idf it) i m)).Nodup := by
          rw [childrenOf_setIdx]; exact hchild
        have hbound2 : ∀ p ∈ setIdxE (idf it) i m, p.2.child < n := by
          intro p hp
          obtain ⟨q, hq, _, h2, _⟩ := setIdxE_mem _ _ m p hp
          rw [h2]
          exact hbound q hq
        by_cases hcf2 : e1.child ∈ f
        · simp only [hl]
          rw [if_pos hcf2]
          obtain ⟨w, r0, a0, ⟨e, he, hi, hc, hs⟩, kc⟩ := ih (i + 1)
            (setIdxE (idf it) i m) f n k e0
            hkeys2 hchild2 hbound2 hf hlk2 hcf
          refine ⟨?_, ?_, ?_, ⟨e, he, hi, hc, hs⟩, ?_⟩
          · rw [List.countP_cons, List.countP_cons, w]
            simp [isWarn, hkk, List.count_cons]
          · rw [List.countP_cons, List.countP_cons, r0]
            simp [isRender]
          · rw [List.countP_cons, List.countP_cons, a0]
            simp [isAdd]
          · rw [kc, keysOf_setIdx]
        · simp only [hl]
          rw [if_neg hcf2]
          have hf2 : ∀ c ∈ f ++ [e1.child], c < n := by
            intro c hcm
            rcases List.mem_append.1 hcm with hcm | hcm
            · exact hf c hcm
            · rw [List.mem_singleton.1 hcm]
              exact hbound (idf it, e1) (lookupE_mem_pair _ m e1 hl)
          have hcf3 : e0.child ∈ f ++ [e1.child] :=
            List.mem_append.2 (Or.inl hcf)
          obtain ⟨w, r0, a0, ⟨e, he, hi, hc, hs⟩, kc⟩ := ih (i + 1)
            (setIdxE (idf it) i m) (f ++ [e1.child]) n k e0
            hkeys2 hchild2 hbound2 hf2 hlk2 hcf3
          have hcne : e0.child ≠ e1.child :=
            lookupE_children_ne k (idf it) m e0 e1 hchild hne hlk hl
          refine ⟨?_, ?_, ?_, ⟨e, he, hi, hc, hs⟩, ?_⟩
          · rw [List.countP_cons, List.countP_cons, w]
            simp [isWarn, hkk, List.count_cons]
          · rw [List.countP_cons, List.countP_cons, r0]
            simp [isRender]
          · rw [List.countP_cons, List.countP_cons, a0]
            have : ¬ e1.child = e0.child := fun hh => hcne hh.symm
            simp [isAdd, isSetIdx, this]
          · rw [kc, keysOf_setIdx]
      | none =>
        simp only [hl]
        have hk0 : idf it ∉ keysOf m := (lookupE_none_iff (idf it) m).1 hl
        have hlk2 : lookupE k (m ++ [(idf it,
            (⟨it, n + 1, i, n⟩ : ForEntry Item))]) = some e0 := by
          rw [lookupE_append_sing, hlk]
        have hkeys2 : (keysOf (m ++ [(idf it,
            (⟨it, n + 1, i, n⟩ : ForEntry Item))])).Nodup := by
          rw [keysOf_append_sing]
          exact List.Nodup.append hkeys (List.nodup_singleton _)
            (by simpa using hk0)
        have hchild2 : (childrenOf (m ++ [(idf it,
            (⟨it, n + 1, i, n⟩ : ForEntry Item))])).Nodup := by
          rw [childrenOf_append_sing]
          refine List.Nodup.append hchild (List.nodup_singleton _) ?_
          intro c hcm
          have : c < n := by
            simp only [childrenOf, List.mem_map] at hcm
            obtain ⟨p, hp, hpc⟩ := hcm
            rw [← hpc]
            exact hbound p hp
          simp only [List.mem_singleton]
          omega
        have hbound2 : ∀ p ∈ m ++ [(idf it,
            (⟨it, n + 1, i, n⟩ : ForEntry Item))], p.2.child < n + 2 := by
          intro p hp
          rcases List.mem_append.1 hp with hp | hp
          · have := hbound p hp
            omega
          · rw [List.mem_singleton.1 hp]
            show n + 1 < n + 2
            omega
        have hf2 : ∀ c ∈ f ++ [n + 1], c < n + 2 := by
          intro c hcm
          rcases List.mem_append.1 hcm with hcm | hcm
          · have := hf c hcm
            omega
          · rw [List.mem_singleton.1 hcm]
            omega
        have hcf3 : e0.child ∈ f ++ [n + 1] :=
          List.mem_append.2 (Or.inl hcf)
        obtain ⟨w, r0, a0, ⟨e, he, hi, hc, hs⟩, kc⟩ := ih (i + 1)
          (m ++ [(idf it, ⟨it, n + 1, i, n⟩)]) (f ++ [n + 1]) (n + 2) k e0
          hkeys2 hchild2 hbound2 hf2 hlk2 hcf3
        have hcne : e0.child ≠ n + 1 := by
          have hlt : e0.child < n :=
            hbound (k, e0) (lookupE_mem_pair _ m e0 hlk)
          omega
        refine ⟨?_, ?_, ?_, ⟨e, he, hi, hc, hs⟩, ?_⟩
        · rw [List.countP_cons, List.countP_cons, List.countP_cons, w]
          simp [isWarn, hkk, List.count_cons]
        · rw [List.countP_cons, List.countP_cons, List.countP_cons, r0]
          simp [isRender, hkk]
        · rw [List.countP_cons, List.countP_cons, List.countP_cons, a0]
          have : ¬ (n + 1) = e0.child := fun hh => hcne hh.symm
          simp [isAdd, this]
        · rw [kc, keysOf_append_sing, List.count_append]
          have hne3 : ¬ (idf it) = k := hkk
          simp [List.count_cons, hne3]

end ForDup

section ForDupA

variable {Item Key : Type} [DecidableEq Key]

lemma phase2_dupA (idf : Item → Key) (parent : Nat) :
    ∀ (items : List Item) (i : Nat) (m : List (Key × ForEntry Item))
      (f : List Nat) (n : Nat) (k : Key),
      (keysOf m).Nodup → (childrenOf m).Nodup →
      (∀ p ∈ m, p.2.child < n) → (∀ c ∈ f, c < n) →
      k ∉ keysOf m → k ∈ items.map idf →
      ∃ it1 sid, firstWith idf k items = some it1 ∧ n ≤ sid ∧
        (phase2 idf parent items i m f n).2.2.2.countP (isWarn k) =
          (items.map idf).count k - 1 ∧
        (phase2 idf parent items i m f n).2.2.2.countP (isRender k) = 1 ∧
        (phase2 idf parent items i m f n).2.2.2.countP
          (isAdd (sid + 1)) = 1 ∧
        (∃ e, lookupE k (phase2 idf parent items i m f n).1 = some e ∧
          e.item = it1 ∧ e.child = sid + 1 ∧ e.sid = sid) ∧
        (keysOf (phase2 idf parent items i m f n).1).count k = 1 := by
  intro items
  induction items with
  | nil =>
    intro i m f n k _ _ _ _ _ hmem
    simp at hmem
  | cons it rest ih =>
    intro i m f n k hkeys hchild hbound hf hA hmem
    by_cases hkk : idf it = k
    · have hl : lookupE (idf it) m = none := by
        rw [hkk]
        exact (lookupE_none_iff k m).2 hA
      rw [phase2_cons_eq]
      simp only [hl]
      have hk0 : idf it ∉ keysOf m := by rw [hkk]; exact hA
      have hkeys2 : (keysOf (m ++ [(idf it,
          (⟨it, n + 1, i, n⟩ : ForEntry Item))])).Nodup := by
        rw [keysOf_append_sing]
        exact List.Nodup.append hkeys (List.nodup_singleton _)
          (by simpa using hk0)
      have hchild2 : (childrenOf (m ++ [(idf it,
          (⟨it, n + 1, i, n⟩ : ForEntry Item))])).Nodup := by
        rw [childrenOf_append_sing]
        refine List.Nodup.append hchild (List.nodup_singleton _) ?_
        intro c hcm
        have : c < n := by
          simp only [childrenOf, List.mem_map] at hcm
          obtain ⟨p, hp, hpc⟩ := hcm
          rw [← hpc]
          exact hbound p hp
        simp only [List.mem_singleton]
        omega
      have hbound2 : ∀ p ∈ m ++ [(idf it,
          (⟨it, n + 1, i, n⟩ : ForEntry Item))], p.2.child < n + 2 := by
        intro p hp
        rcases List.mem_append.1 hp with hp | hp
        · have := hbound p hp
          omega
        · rw [List.mem_singleton.1 hp]
          show n + 1 < n + 2
          omega
      have hf2 : ∀ c ∈ f ++ [n + 1], c < n + 2 := by
        intro c hcm
        rcases List.mem_append.1 hcm with hcm | hcm
        · have := hf c hcm
          omega
        · rw [List.mem_singleton.1 hcm]
          omega
      have hlk2 : lookupE k (m ++ [(idf it,
          (⟨it, n + 1, i, n⟩ : ForEntry Item))]) =
          some ⟨it, n + 1, i, n⟩ := by
        rw [lookupE_append_sing, (lookupE_none_iff k m).2 hA]
        simp [hkk]
      have hcf3 : ((⟨it, n + 1, i, n⟩ : ForEntry Item)).child ∈
          f ++ [n + 1] := List.mem_append.2 (Or.inr (List.mem_singleton.2 rfl))
      obtain ⟨w, r0, a0, ⟨e, he, hi, hc, hs⟩, kc⟩ :=
        phase2_dupB idf parent rest (i + 1)
          (m ++ [(idf it, ⟨it, n + 1, i, n⟩)]) (f ++ [n + 1]) (n + 2) k
          ⟨it, n + 1, i, n⟩ hkeys2 hchild2 hbound2 hf2 hlk2 hcf3
      refine ⟨it, n, by simp [firstWith, hkk], le_refl n, ?_, ?_, ?_,
        ⟨e, he, hi, hc, hs⟩, ?_⟩
      · rw [List.countP_cons, List.countP_cons, List.countP_cons, w]
        simp [isWarn, List.count_cons, hkk]
      · rw [List.countP_cons, List.countP_cons, List.countP_cons, r0]
        simp [isRender, hkk]
      · rw [List.countP_cons, List.countP_cons, List.countP_cons, a0]
        simp [isAdd]
      · rw [kc, keysOf_append_sing, List.count_append]
        have hcc : List.count k (keysOf m) = 0 := List.count_eq_zero.2 hA
        simp [List.count_cons, hkk, hcc]
    · have hne : ¬ k = idf it := fun hh => hkk hh.symm
      have hmem2 : k ∈ rest.map idf := by
        simp only [List.map_cons, List.mem_cons] at hmem
        rcases hmem with hmem | hmem
        · exact absurd hmem.symm hkk
        · exact hmem
      rw [phase2_cons_eq]
      cases hl : lookupE (idf it) m with
      | some e1 =>
        have hA2 : k ∉ keysOf (setIdxE (idf it) i m) := by
          rw [keysOf_setIdx]; exact hA
        have hkeys2 : (keysOf (setIdxE (idf it) i m)).Nodup := by
          rw [keysOf_setIdx]; exact hkeys
        have hchild2 : (childrenOf (setIdxE (idf it) i m)).Nodup := by
          rw [childrenOf_setIdx]; exact hchild
        have hbound2 : ∀ p ∈ setIdxE (idf it) i m, p.2.child < n := by
          intro p hp
          obtain ⟨q, hq, _, h2, _⟩ := setIdxE_mem _ _ m p hp
          rw [h2]
          exact hbound q hq
        by_cases hcf2 : e1.child ∈ f
        · simp only [hl]
          rw [if_pos hcf2]
          obtain ⟨it1, sid, hfw, hsid, w, r0, a0, ⟨e, he, hi, hc, hs⟩, kc⟩ :=
            ih (i + 1) (setIdxE (idf it) i m) f n k
              hkeys2 hchild2 hbound2 hf hA2 hmem2
          refine ⟨it1, sid, by simp [firstWith, hkk, hfw], hsid, ?_, ?_, ?_,
            ⟨e, he, hi, hc, hs⟩, kc⟩
          · rw [List.countP_cons, List.countP_cons, w]
            simp [isWarn, List.count_cons, hkk]
          · rw [List.countP_cons, List.countP_cons, r0]
            simp [isRender]
          · rw [List.countP_cons, List.countP_cons, a0]
            simp [isAdd]
        · simp only [hl]
          rw [if_neg hcf2]
          have hf2 : ∀ c ∈ f ++ [e1.child], c < n := by
            intro c hcm
            rcases List.mem_append.1 hcm with hcm | hcm
            · exact hf c hcm
            · rw [List.mem_singleton.1 hcm]
              exact hbound (idf it, e1) (lookupE_mem_pair _ m e1 hl)
          obtain ⟨it1, sid, hfw, hsid, w, r0, a0, ⟨e, he, hi, hc, hs⟩, kc⟩ :=
            ih (i + 1) (setIdxE (idf it) i m) (f ++ [e1.child]) n k
              hkeys2 hchild2 hbound2 hf2 hA2 hmem2
          have hcne : ¬ e1.child = sid + 1 := by
            have hlt : e1.child < n :=
              hbound (idf it, e1) (lookupE_mem_pair _ m e1 hl)
            omega
          refine ⟨it1, sid, by simp [firstWith, hkk, hfw], hsid, ?_, ?_, ?_,
            ⟨e, he, hi, hc, hs⟩, kc⟩
          · rw [List.countP_cons, List.countP_cons, w]
            simp [isWarn, List.count_cons, hkk]
          · rw [List.countP_cons, List.countP_cons, r0]
            simp [isRender]
          · rw [List.countP_cons, List.countP_cons, a0]
            simp [isAdd, hcne]
      | none =>
        simp only [hl]
        have hk0 : idf it ∉ keysOf m := (lookupE_none_iff (idf it) m).1 hl
        have hA2 : k ∉ keysOf (m ++ [(idf it,
            (⟨it, n + 1, i, n⟩ : ForEntry Item))]) := by
          rw [keysOf_append_sing]
          intro hmm
          rcases List.mem_append.1 hmm with hmm | hmm
          · exact hA hmm
          · exact hne (List.mem_singleton.1 hmm)
        have hkeys2 : (keysOf (m ++ [(idf it,
            (⟨it, n + 1, i, n⟩ : ForEntry Item))])).Nodup := by
          rw [keysOf_append_sing]
          exact List.Nodup.append hkeys (List.nodup_singleton _)
            (by simpa using hk0)
        have hchild2 : (childrenOf (m ++ [(idf it,
            (⟨it, n + 1, i, n⟩ : ForEntry Item))])).Nodup := by
          rw [childrenOf_append_sing]
          refine List.Nodup.append hchild (List.nodup_singleton _) ?_
          intro c hcm
          have : c < n := by
            simp only [childrenOf, List.mem_map] at hcm
            obtain ⟨p, hp, hpc⟩ := hcm
            rw [← hpc]
            exact hbound p hp
          simp only [List.mem_singleton]
          omega
        have hbound2 : ∀ p ∈ m ++ [(idf it,
            (⟨it, n + 1, i, n⟩ : ForEntry Item))], p.2.child < n + 2 := by
          intro p hp
          rcases List.mem_append.1 hp with hp | hp
          · have := hbound p hp
            omega
          · rw [List.mem_singleton.1 hp]
            show n + 1 < n + 2
            omega
        have hf2 : ∀ c ∈ f ++ [n + 1], c < n + 2 := by
          intro c hcm
          rcases List.mem_append.1 hcm with hcm | hcm
          · have := hf c hcm
            omega
          · rw [List.mem_singleton.1 hcm]
            omega
        obtain ⟨it1, sid, hfw, hsid, w, r0, a0, ⟨e, he, hi, hc, hs⟩, kc⟩ :=
          ih (i + 1) (m ++ [(idf it, ⟨it, n + 1, i, n⟩)]) (f ++ [n + 1])
            (n + 2) k hkeys2 hchild2 hbound2 hf2 hA2 hmem2
        have hcne : ¬ (n + 1) = sid + 1 := by omega
        refine ⟨it1, sid, by simp [firstWith, hkk, hfw], by omega, ?_, ?_, ?_,
          ⟨e, he, hi, hc, hs⟩, kc⟩
        · rw [List.countP_cons, List.countP_cons, List.countP_cons, w]
          simp [isWarn, List.count_cons, hkk]
        · rw [List.countP_cons, List.countP_cons, List.countP_cons, r0]
          simp [isRender, hkk]
        · rw [List.countP_cons, List.countP_cons, List.countP_cons, a0]
          simp [isAdd, hcne]

end ForDupA

/-- **C8**: in a collection-reconciler pass whose input contains two or
more items mapping to the same (previously untracked) key, a duplicate-key
warning is logged (one per extra occurrence), exactly one render call —
hence exactly one child scope — happens for that key, the key's output is
appended to the container exactly once (the later duplicates are not
mounted), and the tracking map ends up with exactly one entry for that
key, carrying the first occurrence's item. -/
theorem for_duplicate_key {Item Key : Type} [DecidableEq Key]
    (idf : Item → Key) (parent : Nat) (cm : CleanupMode)
    (items : List Item) (s : ForState Item Key)
    (r : ForState Item Key × List (FEv Key)) (k : Key)
    (hinv : ForInv s) (hnot : k ∉ keysOf s.map)
    (hdup : 2 ≤ (items.map idf).count k)
    (hr : r = forCallback idf parent cm items s) :
    1 ≤ r.2.countP (isWarn k) ∧
    r.2.countP (isWarn k) = (items.map idf).count k - 1 ∧
    r.2.countP (isRender k) = 1 ∧
    ∃ it1 sid, firstWith idf k items = some it1 ∧ s.next ≤ sid ∧
      r.2.countP (isAdd (sid + 1)) = 1 ∧
      (∃ e, lookupE k r.1.map = some e ∧ e.item = it1 ∧
        e.child = sid + 1 ∧ e.sid = sid) ∧
      (keysOf r.1.map).count k = 1 := by
  subst hr
  obtain ⟨hkeys, hchild, hsids, hperm, hbnd⟩ := hinv
  have hm1 : (phase1 cm (items.map idf) s.map s.frag).1 =
      s.map.filter (fun p => decide (p.1 ∈ items.map idf)) :=
    phase1_map cm (items.map idf) s.map s.frag
  have hf1 : (phase1 cm (items.map idf) s.map s.frag).2.1 = [] :=
    phase1_frag cm (items.map idf) s.map s.frag hperm hchild
  have hkeysF : (keysOf (s.map.filter
      (fun p => decide (p.1 ∈ items.map idf)))).Nodup :=
    List.Nodup.sublist (keysOf_filter_sublist _ s.map) hkeys
  have hchildF : (childrenOf (s.map.filter
      (fun p => decide (p.1 ∈ items.map idf)))).Nodup :=
    List.Nodup.sublist (childrenOf_filter_sublist _ s.map) hchild
  have hboundF : ∀ p ∈ s.map.filter
      (fun p => decide (p.1 ∈ items.map idf)), p.2.child < s.next :=
    fun p hp => (hbnd p (List.mem_of_mem_filter hp)).1
  have hmem : k ∈ items.map idf := by
    have hpos : 0 < (items.map idf).count k := by omega
    exact List.count_pos_iff.1 hpos
  have hnotF : k ∉ keysOf (s.map.filter
      (fun p => decide (p.1 ∈ items.map idf))) :=
    fun hmm => hnot ((keysOf_filter_sublist _ s.map).subset hmm)
  obtain ⟨it1, sid, hfw, hsid, w, r0, a0, he, kc⟩ :=
    phase2_dupA idf parent items 0
      (s.map.filter (fun p => decide (p.1 ∈ items.map idf))) [] s.next k
      hkeysF hchildF hboundF (by intro c hc; simp at hc) hnotF hmem
  rw [forCallback_eq, hm1, hf1]
  dsimp only
  refine ⟨?_, ?_, ?_, it1, sid, hfw, hsid, ?_, he, kc⟩
  · rw [List.countP_append,
      (phase1_no_p2ev cm (items.map idf) s.map s.frag k).2.2, w]
    omega
  · rw [List.countP_append,
      (phase1_no_p2ev cm (items.map idf) s.map s.frag k).2.2, w]
    omega
  · rw [List.countP_append,
      (phase1_no_p2ev cm (items.map idf) s.map s.frag k).1, r0]
  · rw [List.countP_append,
      phase1_no_add cm (items.map idf) s.map s.frag (sid + 1), a0]

/-- An empty reconciler state, used for a pass whose input repeats one key. -/
def forDupState : ForState Nat Nat := ⟨[], [], 0⟩

theorem for_duplicate_key_witness :
    1 ≤ (forCallback (fun x : Nat => x) 0 CleanupMode.envDefault [7, 7]
      forDupState).2.countP (isWarn 7) ∧
    (forCallback (fun x : Nat => x) 0 CleanupMode.envDefault [7, 7]
      forDupState).2.countP (isRender 7) = 1 ∧
    (keysOf (forCallback (fun x : Nat => x) 0 CleanupMode.envDefault [7, 7]
      forDupState).1.map).count 7 = 1 := by
  have h := for_duplicate_key (fun x : Nat => x) 0 CleanupMode.envDefault
    [7, 7] forDupState _ 7
    ⟨by decide, by decide, by decide, by decide, by decide⟩ (by decide)
    (by decide) rfl
  obtain ⟨h1, _, h3, it1, sid, _, _, _, _, kc⟩ := h
  exact ⟨h1, h3, kc⟩
